import Mathlib

/-!
# Bencode codec (`Bencode.h`)

A shallow embedding of the decoder (`DecodeBencodeInteger`, `DecodeBencodeString`,
`DecodeBencodeList`, `DecodeBencodeDictionary`, `DecodeBencodeElement`), of the
encoder (`details::Decoder`, `Decode`) and of the pretty printer
(`details::Prettier`, `Prettier`).

Memory model.  A `std::string_view` is a pointer and a length into a byte buffer
that it does not own.  The buffer is the list `mem`; a pointer
(`string_view_ptr`) is an index into `mem`; reading a byte at an index outside
`mem` is undefined behaviour in C++ and is the outcome `Failure.undefined` here.
The decoder routines dereference pointers without comparing them to the end of
their view, so the bytes of the buffer that lie behind the view matter, and
every routine takes the buffer as an argument.  A failed `PARSE_ERROR_ASSERT`
copies its view into the message before it throws, so it throws `ParseError` only
when that copy can be made: a view whose length has wrapped around gives
`std::length_error`.

The two `while` loops and the recursion between the list and the dictionary
routine are driven by a recursion budget (`fuel`); `DecodeBencodeElement` starts
them with `2 * mem.length + 2`.
-/

namespace bencode

/-! ## Value model -/

/-- The variant `BencodeElement`: `BencodeInteger = long long`,
`BencodeString = std::string`, `BencodeList = std::vector<BencodeElement>`,
`BencodeDictionary = std::unordered_map<BencodeString, BencodeElement>`.
A dictionary is kept as the list of its entries in the order of their insertion,
with pairwise distinct keys when built by `BencodeDictionary.insert`; the order in
which a `std::unordered_map` is iterated is not part of the model. -/
inductive BencodeElement where
  | integer (value : Int)
  | string (value : List Char)
  | list (value : List BencodeElement)
  | dictionary (value : List (List Char × BencodeElement))

abbrev BencodeInteger := Int

abbrev BencodeString := List Char

abbrev BencodeList := List BencodeElement

abbrev BencodeDictionary := List (BencodeString × BencodeElement)

/-- Pointer into the buffer (`std::string_view::const_pointer`): an index into `mem`.
The signatures below write `Nat` for it. -/
abbrev string_view_ptr := Nat

/-- Number of values of `std::size_t` (64 bit). -/
def SIZE_MODULUS : Nat := 18446744073709551616

/-- The value of `std::string::max_size()` (libstdc++ on a 64-bit platform,
`(PTRDIFF_MAX - 1) / 2`); the statements below only use that buffers are not
longer than this and that a length that has wrapped around in `std::size_t` is. -/
def STRING_MAX_SIZE : Nat := 4611686018427387903

/-- Smallest `long long`. -/
def LLONG_MIN : Int := -9223372036854775808

/-- Largest `long long`. -/
def LLONG_MAX : Int := 9223372036854775807

/-- How a routine can end without returning. -/
inductive Failure where
  /-- The exception `ParseError` thrown by `PARSE_ERROR_ASSERT`. -/
  | ParseError
  /-- The exception `std::out_of_range` thrown by `string_view::at` and by
  `std::string::erase`. -/
  | out_of_range
  /-- The exception `std::length_error` thrown when a `std::string` longer than
  `max_size()` is asked for. -/
  | length_error
  /-- A read outside the underlying buffer (undefined behaviour). -/
  | undefined
  /-- The recursion budget of the model is used up. -/
  | fuel
  deriving DecidableEq, Repr

/-- A `std::string_view`: pointer to the first byte and number of bytes. -/
structure string_view where
  data : Nat
  size : Nat
  deriving DecidableEq, Repr

/-- Conversion of a pointer difference `a - b` to `std::size_t`. -/
def size_of_diff (a b : Nat) : Nat :=
  (((a : Int) - (b : Int)) % (SIZE_MODULUS : Int)).toNat

def string_view.empty (str : string_view) : Bool := str.size == 0

def string_view.cbegin (str : string_view) : Nat := str.data

def string_view.cend (str : string_view) : Nat := str.data + str.size

/-- The member `remove_prefix(n)`: the pointer moves `n` bytes forward and the
length shrinks by `n` (in `std::size_t` arithmetic). -/
def string_view.remove_prefix (str : string_view) (n : Nat) : string_view :=
  { data := str.data + n, size := size_of_diff str.size n }

/-- Dereference `*p`. -/
def readByte (mem : List Char) (p : Nat) : Except Failure Char :=
  match mem[p]? with
  | some c => .ok c
  | none => .error .undefined

/-- The member `at(pos)`: bounds-checked against the view, then read. -/
def string_view.at (mem : List Char) (str : string_view) (pos : Nat) : Except Failure Char :=
  if pos < str.size then readByte mem (str.data + pos) else .error .out_of_range

/-- The constructor `BencodeString(first, last)`: copies the bytes in `[first, last)`.
A range that ends outside the buffer is undefined behaviour, as the pointer
`ptr + length` behind it already is. -/
def readRange (mem : List Char) (first last : Nat) : Except Failure (List Char) :=
  if last ≤ mem.length then .ok ((mem.drop first).take (last - first)) else .error .undefined

/-- The part `std::string(str)` of the macro `PARSE_ERROR_MSG(str)`: the bytes of
the view are copied into a new string.  A size above `max_size()` throws
`std::length_error` before any byte is read; otherwise the bytes `[data, data +
size)` are read.  The rest of the message (function, file, line) does not depend
on the input; running out of memory is not modelled. -/
def PARSE_ERROR_MSG (mem : List Char) (str : string_view) : Except Failure (List Char) :=
  if str.size > STRING_MAX_SIZE then .error .length_error
  else if str.size = 0 then .ok []
  else if str.data + str.size ≤ mem.length then .ok ((mem.drop str.data).take str.size)
  else .error .undefined

/-- The macro `PARSE_ERROR_ASSERT(p, str)`: when `p` fails, the message is built
from `str` and `ParseError` is thrown with it. -/
def PARSE_ERROR_ASSERT (mem : List Char) (p : Bool) (str : string_view) : Except Failure Unit :=
  if p then .ok () else do
    let _ ← PARSE_ERROR_MSG mem str
    .error .ParseError

/-- The view is a `std::string_view` into the buffer: its bytes lie inside the
buffer and their number is a length a `std::string` can have. -/
def string_view.inBuffer (mem : List Char) (str : string_view) : Prop :=
  str.size ≤ STRING_MAX_SIZE ∧ str.data + str.size ≤ mem.length

instance (mem : List Char) (str : string_view) : Decidable (string_view.inBuffer mem str) :=
  inferInstanceAs (Decidable (str.size ≤ STRING_MAX_SIZE ∧ str.data + str.size ≤ mem.length))

/-- The guard `!str.empty() && P(str.at(0))` with its short circuit. -/
def nonemptyAnd (mem : List Char) (str : string_view) (P : Char → Bool) : Except Failure Bool :=
  if str.empty then .ok false else do
    let c ← str.at mem 0
    pure (P c)

/-! ## `std::from_chars` and `std::to_string` -/

/-- The error codes `std::from_chars` can report. -/
inductive errc where
  | ok
  | invalid_argument
  | result_out_of_range
  deriving DecidableEq, Repr

/-- The result of `std::from_chars`, together with the content of the output
variable after the call. -/
structure from_chars_result (α : Type) where
  ptr : Nat
  ec : errc
  value : α

/-- The maximal run of ASCII digits in `[p, last)`; `bytes` is the buffer from
`p` on.  Returns the number the run denotes and the pointer behind it. -/
def digitRun (last : Nat) : List Char → Nat → Nat →
    Except Failure (Nat × Nat)
  | [], p, acc => if p < last then .error .undefined else .ok (acc, p)
  | c :: cs, p, acc =>
    if p < last && c.isDigit then digitRun last cs (p + 1) (acc * 10 + (c.toNat - 48))
    else .ok (acc, p)

/-- The call `std::from_chars(first, last, result)` for `std::size_t`: digits only.
Without a digit: `invalid_argument`, `ptr = first`.  A value that does not fit:
`result_out_of_range`, `ptr` behind the digits.  In both cases `result` keeps
its value. -/
def from_chars_size_t (mem : List Char) (first last : Nat) (result : Nat) :
    Except Failure (from_chars_result Nat) := do
  let (n, ptr) ← digitRun last (mem.drop first) first 0
  if ptr = first then pure ⟨first, .invalid_argument, result⟩
  else if n < SIZE_MODULUS then pure ⟨ptr, .ok, n⟩
  else pure ⟨ptr, .result_out_of_range, result⟩

/-- The call `std::from_chars(first, last, result)` for `long long`: an optional
minus sign, then digits. -/
def from_chars_long_long (mem : List Char) (first last : Nat) (result : Int) :
    Except Failure (from_chars_result Int) := do
  let c ← if first < last then readByte mem first else pure '0'
  let start := if first < last && c == '-' then first + 1 else first
  let (n, ptr) ← digitRun last (mem.drop start) start 0
  let v : Int := if first < last && c == '-' then -(n : Int) else (n : Int)
  if ptr = start then pure ⟨first, .invalid_argument, result⟩
  else if LLONG_MIN ≤ v ∧ v ≤ LLONG_MAX then pure ⟨ptr, .ok, v⟩
  else pure ⟨ptr, .result_out_of_range, result⟩

/-- Decimal digits of `n`, most significant first; `fuel` bounds the number of digits. -/
def decimalDigits : Nat → Nat → List Char
  | 0, _ => []
  | fuel + 1, n =>
    if n < 10 then [Nat.digitChar n]
    else decimalDigits fuel (n / 10) ++ [Nat.digitChar (n % 10)]

/-- The call `std::to_string(n)` for an unsigned value. -/
def to_string_size_t (n : Nat) : List Char := decimalDigits (n + 1) n

/-- The call `std::to_string(n)` for a `long long`. -/
def to_string_long_long (n : Int) : List Char :=
  if n < 0 then '-' :: to_string_size_t n.natAbs else to_string_size_t n.natAbs

/-! ## Decoder -/

/-- The function `DecodeBencodeInteger`. -/
def DecodeBencodeInteger (mem : List Char) (str : string_view) :
    Except Failure (Int × Nat) := do
  PARSE_ERROR_ASSERT mem (← nonemptyAnd mem str (fun c => c == 'i')) str
  let str := string_view.remove_prefix str 1
  let result : Int := 0
  let r ← from_chars_long_long mem str.cbegin str.cend result
  PARSE_ERROR_ASSERT mem (r.ec != errc.invalid_argument) str
  let c ← readByte mem r.ptr
  PARSE_ERROR_ASSERT mem (c == 'e') str
  pure (r.value, r.ptr + 1)

/-- The function `DecodeBencodeString`. -/
def DecodeBencodeString (mem : List Char) (str : string_view) :
    Except Failure (List Char × Nat) := do
  PARSE_ERROR_ASSERT mem (← nonemptyAnd mem str Char.isDigit) str
  let length : Nat := 0
  let r ← from_chars_size_t mem str.cbegin str.cend length
  let c ← readByte mem r.ptr
  PARSE_ERROR_ASSERT mem (c == ':') str
  let ptr := r.ptr + 1
  PARSE_ERROR_ASSERT mem (r.ec != errc.invalid_argument) str
  let end_ := ptr + r.value
  let s ← readRange mem ptr end_
  pure (s, end_)

/-- The member `insert` of `std::unordered_map`: a key that is already present
keeps its element. -/
def BencodeDictionary.insert (dict : List (List Char × BencodeElement))
    (key : List Char) (el : BencodeElement) : List (List Char × BencodeElement) :=
  if (dict.lookup key).isSome then dict else dict ++ [(key, el)]

mutual

/-- The function `DecodeBencodeList`. -/
def DecodeBencodeList (mem : List Char) : Nat → string_view →
    Except Failure (List BencodeElement × Nat)
  | 0, _ => .error .fuel
  | fuel + 1, str => do
    PARSE_ERROR_ASSERT mem (← nonemptyAnd mem str (fun c => c == 'l')) str
    let str := string_view.remove_prefix str 1
    DecodeBencodeList_while mem fuel str [] str.cbegin

/-- The loop `while (*decode_element_pos != 'e')` of `DecodeBencodeList`. -/
def DecodeBencodeList_while (mem : List Char) : Nat → string_view → List BencodeElement →
    Nat → Except Failure (List BencodeElement × Nat)
  | 0, _, _, _ => .error .fuel
  | fuel + 1, str, result, decode_element_pos => do
    let c ← readByte mem decode_element_pos
    if c != 'e' then
      let argument_view : string_view :=
        { data := decode_element_pos, size := size_of_diff str.cend decode_element_pos }
      if c = 'i' then
        let (integer, end_) ← DecodeBencodeInteger mem argument_view
        DecodeBencodeList_while mem fuel str (result ++ [.integer integer]) end_
      else if c = 'l' then
        let (list, end_) ← DecodeBencodeList mem fuel argument_view
        DecodeBencodeList_while mem fuel str (result ++ [.list list]) end_
      else if c = 'd' then
        let (dict, end_) ← DecodeBencodeDictionary mem fuel argument_view
        DecodeBencodeList_while mem fuel str (result ++ [.dictionary dict]) end_
      else
        let (s, end_) ← DecodeBencodeString mem argument_view
        DecodeBencodeList_while mem fuel str (result ++ [.string s]) end_
    else pure (result, decode_element_pos + 1)

/-- The function `DecodeBencodeDictionary`. -/
def DecodeBencodeDictionary (mem : List Char) : Nat → string_view →
    Except Failure (List (List Char × BencodeElement) × Nat)
  | 0, _ => .error .fuel
  | fuel + 1, str => do
    PARSE_ERROR_ASSERT mem (← nonemptyAnd mem str (fun c => c == 'd')) str
    let str := string_view.remove_prefix str 1
    DecodeBencodeDictionary_while mem fuel str [] str.cbegin

/-- The loop `while (*decode_element_pos != 'e')` of `DecodeBencodeDictionary`. -/
def DecodeBencodeDictionary_while (mem : List Char) : Nat → string_view →
    List (List Char × BencodeElement) → Nat → Except Failure (List (List Char × BencodeElement) × Nat)
  | 0, _, _, _ => .error .fuel
  | fuel + 1, str, result, decode_element_pos => do
    let c ← readByte mem decode_element_pos
    if c != 'e' then
      let argument_view : string_view :=
        { data := decode_element_pos, size := size_of_diff str.cend decode_element_pos }
      let (key, end_) ← DecodeBencodeString mem argument_view
      let argument_view := string_view.remove_prefix argument_view (end_ - decode_element_pos)
      let decode_element_pos := end_
      let c ← readByte mem decode_element_pos
      if c = 'i' then
        let (integer, end_) ← DecodeBencodeInteger mem argument_view
        DecodeBencodeDictionary_while mem fuel str (BencodeDictionary.insert result key (.integer integer)) end_
      else if c = 'l' then
        let (list, end_) ← DecodeBencodeList mem fuel argument_view
        DecodeBencodeDictionary_while mem fuel str (BencodeDictionary.insert result key (.list list)) end_
      else if c = 'd' then
        let (dict, end_) ← DecodeBencodeDictionary mem fuel argument_view
        DecodeBencodeDictionary_while mem fuel str (BencodeDictionary.insert result key (.dictionary dict)) end_
      else
        let (s, end_) ← DecodeBencodeString mem argument_view
        DecodeBencodeDictionary_while mem fuel str (BencodeDictionary.insert result key (.string s)) end_
    else pure (result, decode_element_pos + 1)

end

/-- The function `DecodeBencodeElement`. -/
def DecodeBencodeElement (mem : List Char) (str : string_view) : Except Failure BencodeElement := do
  let argument_view := str
  let c ← str.at mem 0
  if c = 'i' then
    let (integer, end_) ← DecodeBencodeInteger mem argument_view
    PARSE_ERROR_ASSERT mem (end_ == str.cend) str
    pure (.integer integer)
  else if c = 'l' then
    let (list, end_) ← DecodeBencodeList mem (2 * mem.length + 2) argument_view
    PARSE_ERROR_ASSERT mem (end_ == str.cend) str
    pure (.list list)
  else if c = 'd' then
    let (dict, end_) ← DecodeBencodeDictionary mem (2 * mem.length + 2) argument_view
    PARSE_ERROR_ASSERT mem (end_ == str.cend) str
    pure (.dictionary dict)
  else
    let (s, end_) ← DecodeBencodeString mem argument_view
    PARSE_ERROR_ASSERT mem (end_ == str.cend) str
    pure (.string s)

/-! ## Encoder -/

/-- The visitor `details::Decoder`, applied through `std::visit`.  A
`std::unordered_map` is iterated in an unspecified order that depends on the hash
values; the loop over a dictionary here walks the entries in the order in which
the model stores them, so only what is stated about dictionaries with at most one
entry carries over to the code. -/
def details.Decoder : BencodeElement → List Char
  | .integer integer => ['i'] ++ to_string_long_long integer ++ ['e']
  | .string str => to_string_size_t str.length ++ [':'] ++ str
  | .list list => ['l'] ++ forList list ++ ['e']
  | .dictionary dict => ['d'] ++ forDict dict ++ ['e']
where
  /-- The loop `for (auto &&el : list)`. -/
  forList : List BencodeElement → List Char
    | [] => []
    | el :: rest => details.Decoder el ++ forList rest
  /-- The loop `for (auto &&[key, el] : dict)`. -/
  forDict : List (List Char × BencodeElement) → List Char
    | [] => []
    | (key, el) :: rest => key ++ details.Decoder el ++ forDict rest

/-- The function `Decode`. -/
def Decode (el : BencodeElement) : List Char := details.Decoder el

/-- The view that covers exactly the first `n` bytes of the buffer. -/
def wholeInput (n : Nat) : string_view := { data := 0, size := n }

/-! ## Documents and their values -/

/-- The Bencode document of a value: `i<decimal>e`, `<length>:<bytes>`,
`l<items>e`, `d<key as byte string><value>...e`, the entries of a dictionary in
the order of the list. -/
def bencoded : BencodeElement → List Char
  | .integer n => 'i' :: (to_string_long_long n ++ ['e'])
  | .string s => to_string_size_t s.length ++ ':' :: s
  | .list l => 'l' :: (items l ++ ['e'])
  | .dictionary d => 'd' :: (entries d ++ ['e'])
where
  /-- The documents of the items of a list, one after the other. -/
  items : List BencodeElement → List Char
    | [] => []
    | el :: rest => bencoded el ++ items rest
  /-- The documents of the entries of a dictionary, one after the other. -/
  entries : List (List Char × BencodeElement) → List Char
    | [] => []
    | (key, el) :: rest =>
      (to_string_size_t key.length ++ ':' :: key) ++ (bencoded el ++ entries rest)

/-- The value the decoder builds from the document of `el`: every dictionary is
built entry by entry with `BencodeDictionary.insert`, starting from the empty one. -/
def decoded : BencodeElement → BencodeElement
  | .integer n => .integer n
  | .string s => .string s
  | .list l => .list (items l)
  | .dictionary d => .dictionary (entries d [])
where
  /-- The values of the items of a list. -/
  items : List BencodeElement → List BencodeElement
    | [] => []
    | el :: rest => decoded el :: items rest
  /-- The dictionary after inserting the entries into `result` from left to right. -/
  entries : List (List Char × BencodeElement) → List (List Char × BencodeElement) →
      List (List Char × BencodeElement)
    | [], result => result
    | (key, el) :: rest, result => entries rest (BencodeDictionary.insert result key (decoded el))

/-- A value the C++ types can hold: every integer is a `long long`, the length of
every byte string and of every key is a `std::size_t`. -/
def wellFormed : BencodeElement → Bool
  | .integer n => decide (LLONG_MIN ≤ n) && decide (n ≤ LLONG_MAX)
  | .string s => decide (s.length < SIZE_MODULUS)
  | .list l => items l
  | .dictionary d => entries d
where
  items : List BencodeElement → Bool
    | [] => true
    | el :: rest => wellFormed el && items rest
  entries : List (List Char × BencodeElement) → Bool
    | [] => true
    | (key, el) :: rest => decide (key.length < SIZE_MODULUS) && (wellFormed el && entries rest)

/-- A value built from integers, byte strings and lists only. -/
def dictionaryFree : BencodeElement → Bool
  | .integer _ => true
  | .string _ => true
  | .list l => items l
  | .dictionary _ => false
where
  items : List BencodeElement → Bool
    | [] => true
    | el :: rest => dictionaryFree el && items rest

/-- The production that `DecodeBencodeElement` selects by the leading byte of the
view, with the value and the end position that production returns, before that
position is compared with `str.cend()`. -/
def leadingProduction (mem : List Char) (str : string_view) :
    Except Failure (BencodeElement × Nat) := do
  let c ← str.at mem 0
  if c = 'i' then
    let (integer, end_) ← DecodeBencodeInteger mem str
    pure (.integer integer, end_)
  else if c = 'l' then
    let (list, end_) ← DecodeBencodeList mem (2 * mem.length + 2) str
    pure (.list list, end_)
  else if c = 'd' then
    let (dict, end_) ← DecodeBencodeDictionary mem (2 * mem.length + 2) str
    pure (.dictionary dict, end_)
  else
    let (s, end_) ← DecodeBencodeString mem str
    pure (.string s, end_)

/-- What the four recursive routines return on documents, for a given budget. -/
def DocumentsDecode (mem : List Char) (fuel : Nat) : Prop :=
  (∀ (l : List BencodeElement) (str : string_view) (rest : List Char),
      wellFormed.items l = true →
      mem.drop str.data = bencoded (.list l) ++ rest →
      (bencoded (.list l)).length ≤ str.size → str.size < SIZE_MODULUS →
      2 * (bencoded (.list l)).length ≤ fuel →
      DecodeBencodeList mem fuel str =
        .ok (decoded.items l, str.data + (bencoded (.list l)).length)) ∧
  (∀ (l : List BencodeElement) (str : string_view) (acc : List BencodeElement) (pos : Nat)
      (rest : List Char),
      wellFormed.items l = true →
      mem.drop pos = bencoded.items l ++ 'e' :: rest →
      str.data ≤ pos → pos + (bencoded.items l).length ≤ str.data + str.size →
      str.size < SIZE_MODULUS →
      2 * (bencoded.items l).length + 1 ≤ fuel →
      DecodeBencodeList_while mem fuel str acc pos =
        .ok (acc ++ decoded.items l, pos + (bencoded.items l).length + 1)) ∧
  (∀ (d : List (List Char × BencodeElement)) (str : string_view) (rest : List Char),
      wellFormed.entries d = true →
      mem.drop str.data = bencoded (.dictionary d) ++ rest →
      (bencoded (.dictionary d)).length ≤ str.size → str.size < SIZE_MODULUS →
      2 * (bencoded (.dictionary d)).length ≤ fuel →
      DecodeBencodeDictionary mem fuel str =
        .ok (decoded.entries d [], str.data + (bencoded (.dictionary d)).length)) ∧
  (∀ (d : List (List Char × BencodeElement)) (str : string_view)
      (acc : List (List Char × BencodeElement)) (pos : Nat) (rest : List Char),
      wellFormed.entries d = true →
      mem.drop pos = bencoded.entries d ++ 'e' :: rest →
      str.data ≤ pos → pos + (bencoded.entries d).length ≤ str.data + str.size →
      str.size < SIZE_MODULUS →
      2 * (bencoded.entries d).length + 1 ≤ fuel →
      DecodeBencodeDictionary_while mem fuel str acc pos =
        .ok (decoded.entries d acc, pos + (bencoded.entries d).length + 1))

/-! ## Pretty printer -/

/-- The member `erase(index)` of `std::string`: drops everything from `index` on;
throws `std::out_of_range` when `index > size()`. -/
def string_erase (s : List Char) (index : Nat) : Except Failure (List Char) :=
  if index > s.length then .error .out_of_range else .ok (s.take index)

/-- The visitor `details::Prettier`, applied through `std::visit`.  The loops
append to `output`; `output_str.size() - 3` is computed in `std::size_t`.  A
`std::unordered_map` is iterated in an unspecified order that depends on the hash
values; the loop over a dictionary here walks the entries in the order in which
the model stores them, so only what is stated about dictionaries with at most one
entry carries over to the code. -/
def details.Prettier : BencodeElement → Except Failure (List Char)
  | .integer integer => .ok (to_string_long_long integer)
  | .string str => .ok str
  | .list list => do
    let output_str ← forList list ['[']
    let erased ← string_erase output_str (size_of_diff output_str.length 3)
    pure (erased ++ [']'])
  | .dictionary dict => do
    let output_str ← forDict dict ['{']
    let erased ← string_erase output_str (size_of_diff output_str.length 3)
    pure (erased ++ ['}'])
where
  /-- The loop `for (auto &&el : list)`. -/
  forList : List BencodeElement → List Char → Except Failure (List Char)
    | [], output => .ok output
    | el :: rest, output => do
      let s ← details.Prettier el
      forList rest (output ++ s ++ [' ', ',', ' '])
  /-- The loop `for (auto &&[key, el] : dict)`. -/
  forDict : List (List Char × BencodeElement) → List Char → Except Failure (List Char)
    | [], output => .ok output
    | (key, el) :: rest, output => do
      let s ← details.Prettier el
      forDict rest (output ++ key ++ [' ', ':', ' '] ++ s ++ [' ', ',', ' '])

/-- The function `Prettier`. -/
def Prettier (el : BencodeElement) : Except Failure (List Char) := details.Prettier el

/-! ## Further vocabulary of the statements -/

/-- The number a run of decimal digits denotes. -/
def decimalValue (run : List Char) : Nat :=
  run.foldl (fun a c => a * 10 + (c.toNat - 48)) 0

/-- A value in which the keys of every dictionary are pairwise distinct. -/
def distinctKeys : BencodeElement → Bool
  | .integer _ => true
  | .string _ => true
  | .list l => items l
  | .dictionary d => decide ((d.map Prod.fst).Nodup) && entries d
where
  items : List BencodeElement → Bool
    | [] => true
    | el :: rest => distinctKeys el && items rest
  entries : List (List Char × BencodeElement) → Bool
    | [] => true
    | (_, el) :: rest => distinctKeys el && entries rest

/-- The items of a list joined by the separator `sep`. -/
def joinWith (sep : List Char) : List (List Char) → List Char
  | [] => []
  | [x] => x
  | x :: y :: rest => x ++ sep ++ joinWith sep (y :: rest)

/-! ## Decimal text and the buffer -/

theorem digitChar_isDigit (k : Nat) (hk : k < 10) : (Nat.digitChar k).isDigit = true := by
  interval_cases k <;> rfl

theorem digitChar_value (k : Nat) (hk : k < 10) : (Nat.digitChar k).toNat - 48 = k := by
  interval_cases k <;> rfl

theorem decimalDigits_isDigit (fuel : Nat) : ∀ n, ∀ c ∈ decimalDigits fuel n, c.isDigit = true := by
  induction fuel with
  | zero => intro n c hc; simp [decimalDigits] at hc
  | succ fuel ih =>
    intro n c hc
    unfold decimalDigits at hc
    split at hc
    · simp only [List.mem_singleton] at hc
      subst hc
      exact digitChar_isDigit n (by assumption)
    · rcases List.mem_append.mp hc with h | h
      · exact ih _ c h
      · simp only [List.mem_singleton] at h
        subst h
        exact digitChar_isDigit _ (Nat.mod_lt _ (by decide))

theorem decimalDigits_ne_nil (fuel n : Nat) : decimalDigits (fuel + 1) n ≠ [] := by
  unfold decimalDigits
  split <;> simp

/-- The number a run of digit characters denotes, continuing from `acc`. -/
theorem decimalDigits_value (fuel : Nat) : ∀ n, n < fuel →
    (decimalDigits fuel n).foldl (fun a c => a * 10 + (c.toNat - 48)) 0 = n := by
  induction fuel with
  | zero => intro n h; omega
  | succ fuel ih =>
    intro n h
    unfold decimalDigits
    split
    · simp [digitChar_value n (by assumption)]
    · rw [List.foldl_append, ih (n / 10) (by omega)]
      simp [digitChar_value (n % 10) (Nat.mod_lt _ (by decide))]
      omega

theorem digitRun_append (last : Nat) (rest : List Char) : ∀ (ds : List Char) (p acc : Nat),
    (∀ c ∈ ds, c.isDigit = true) → p + ds.length ≤ last →
    digitRun last (ds ++ rest) p acc =
      digitRun last rest (p + ds.length) (ds.foldl (fun a c => a * 10 + (c.toNat - 48)) acc) := by
  intro ds
  induction ds with
  | nil => intro p acc _ _; simp
  | cons d ds ih =>
    intro p acc hd hp
    have h1 : d.isDigit = true := hd d (by simp)
    have h2 : p < last := by simp at hp; omega
    have h3 := ih (p + 1) (acc * 10 + (d.toNat - 48)) (fun c hc => hd c (by simp [hc]))
      (by simp at hp; omega)
    have h4 : p + 1 + ds.length = p + (ds.length + 1) := by omega
    rw [h4] at h3
    simp only [List.cons_append, digitRun, h1, h2, decide_True, Bool.and_self, if_true,
      List.foldl_cons, List.length_cons]
    exact h3

theorem digitRun_stop (last : Nat) (c : Char) (cs : List Char) (p acc : Nat)
    (hc : c.isDigit = false) : digitRun last (c :: cs) p acc = .ok (acc, p) := by
  simp [digitRun, hc]

theorem size_of_diff_eq (a b : Nat) (h : b ≤ a) (ha : a - b < SIZE_MODULUS) :
    size_of_diff a b = a - b := by
  unfold size_of_diff
  unfold SIZE_MODULUS at *
  omega

theorem readByte_of_drop (mem : List Char) (p : Nat) (c : Char) (cs : List Char)
    (h : mem.drop p = c :: cs) : readByte mem p = .ok c := by
  have : mem[p]? = some c := by
    have := congrArg List.head? h
    simpa [List.head?_drop] using this
  simp [readByte, this]

theorem drop_succ_of_drop (mem : List Char) (p : Nat) (c : Char) (cs : List Char)
    (h : mem.drop p = c :: cs) : mem.drop (p + 1) = cs := by
  have := congrArg List.tail h
  simpa [List.tail_drop] using this

theorem drop_add_of_drop (mem : List Char) (p : Nat) (xs ys : List Char)
    (h : mem.drop p = xs ++ ys) : mem.drop (p + xs.length) = ys := by
  rw [← List.drop_drop, h]
  simp

theorem lt_length_of_drop (mem : List Char) (p : Nat) (c : Char) (cs : List Char)
    (h : mem.drop p = c :: cs) : p < mem.length := by
  by_contra hp
  rw [List.drop_of_length_le (by omega)] at h
  cases h

theorem to_string_size_t_isDigit (n : Nat) : ∀ c ∈ to_string_size_t n, c.isDigit = true :=
  decimalDigits_isDigit (n + 1) n

theorem to_string_size_t_pos (n : Nat) : 0 < (to_string_size_t n).length :=
  List.length_pos.mpr (decimalDigits_ne_nil n n)

theorem to_string_size_t_value (n : Nat) :
    (to_string_size_t n).foldl (fun a c => a * 10 + (c.toNat - 48)) 0 = n :=
  decimalDigits_value (n + 1) n (Nat.lt_succ_self n)

theorem to_string_size_t_head (n : Nat) :
    ∃ d ds, to_string_size_t n = d :: ds ∧ d.isDigit = true := by
  obtain ⟨d, ds, h⟩ := List.exists_cons_of_ne_nil (decimalDigits_ne_nil n n)
  exact ⟨d, ds, h, to_string_size_t_isDigit n d (by rw [show to_string_size_t n = d :: ds from h]; simp)⟩

theorem digitRun_decimal (mem : List Char) (first last n : Nat) (c : Char) (rest : List Char)
    (hmem : mem.drop first = to_string_size_t n ++ c :: rest) (hc : c.isDigit = false)
    (hlast : first + (to_string_size_t n).length ≤ last) :
    digitRun last (mem.drop first) first 0 = .ok (n, first + (to_string_size_t n).length) := by
  rw [hmem, digitRun_append last _ _ first 0 (to_string_size_t_isDigit n) hlast,
    digitRun_stop last c rest _ _ hc, to_string_size_t_value]

theorem from_chars_size_t_decimal (mem : List Char) (first last n : Nat) (c : Char)
    (rest : List Char) (hmem : mem.drop first = to_string_size_t n ++ c :: rest)
    (hc : c.isDigit = false) (hlast : first + (to_string_size_t n).length ≤ last)
    (hn : n < SIZE_MODULUS) (result : Nat) :
    from_chars_size_t mem first last result =
      .ok ⟨first + (to_string_size_t n).length, .ok, n⟩ := by
  have hpos := to_string_size_t_pos n
  have hne : ¬ (first + (to_string_size_t n).length = first) := by omega
  simp [from_chars_size_t, digitRun_decimal mem first last n c rest hmem hc hlast, bind,
    Except.bind, hne, hn, pure, Except.pure]

theorem from_chars_long_long_decimal (mem : List Char) (first last : Nat) (n : Int) (c : Char)
    (rest : List Char) (hmem : mem.drop first = to_string_long_long n ++ c :: rest)
    (hc : c.isDigit = false) (hlast : first + (to_string_long_long n).length ≤ last)
    (hlo : LLONG_MIN ≤ n) (hhi : n ≤ LLONG_MAX) (result : Int) :
    from_chars_long_long mem first last result =
      .ok ⟨first + (to_string_long_long n).length, .ok, n⟩ := by
  have hpos := to_string_size_t_pos n.natAbs
  by_cases hneg : n < 0
  · have hs : to_string_long_long n = '-' :: to_string_size_t n.natAbs := by
      simp [to_string_long_long, hneg]
    rw [hs] at hmem hlast ⊢
    simp only [List.cons_append, List.length_cons] at hmem hlast ⊢
    have hfl : first < last := by omega
    have hmem1 := drop_succ_of_drop mem first _ _ hmem
    have hrun := digitRun_decimal mem (first + 1) last n.natAbs c rest hmem1 hc (by omega)
    have hne : ¬ (first + 1 + (to_string_size_t n.natAbs).length = first + 1) := by omega
    have hv : -|n| = n := by rw [abs_of_neg hneg, neg_neg]
    have hnn : to_string_size_t n.natAbs ≠ [] := List.length_pos.mp hpos
    have e : first + 1 + (to_string_size_t n.natAbs).length =
      first + ((to_string_size_t n.natAbs).length + 1) := by omega
    simp [from_chars_long_long, hfl, readByte_of_drop mem first _ _ hmem, bind, Except.bind,
      hrun, hne, hv, hlo, hhi, pure, Except.pure, e, hnn]
  · have hs : to_string_long_long n = to_string_size_t n.natAbs := by
      simp [to_string_long_long, hneg]
    rw [hs] at hmem hlast ⊢
    obtain ⟨d, ds, hd, hdig⟩ := to_string_size_t_head n.natAbs
    have hmem0 : mem.drop first = d :: (ds ++ c :: rest) := by rw [hmem, hd]; rfl
    have hdm : (d == '-') = false := by
      cases hq : (d == '-') with
      | false => rfl
      | true =>
        have : d = '-' := by simpa using hq
        subst this
        cases hdig
    have hfl : first < last := by omega
    have hrun := digitRun_decimal mem first last n.natAbs c rest hmem hc hlast
    have hne : ¬ (first + (to_string_size_t n.natAbs).length = first) := by omega
    have hv : |n| = n := abs_of_nonneg (by omega)
    have hnn : to_string_size_t n.natAbs ≠ [] := List.length_pos.mp hpos
    simp [from_chars_long_long, hfl, readByte_of_drop mem first _ _ hmem0, bind, Except.bind,
      hrun, hne, hv, hlo, hhi, pure, Except.pure, hdm, hnn]

/-! ## The productions on documents -/

theorem isDigit_false_e : Char.isDigit 'e' = false := by decide

theorem isDigit_false_colon : Char.isDigit ':' = false := by decide

theorem nonemptyAnd_of_drop (mem : List Char) (str : string_view) (P : Char → Bool) (c : Char)
    (cs : List Char) (hmem : mem.drop str.data = c :: cs) (hsize : 0 < str.size) :
    nonemptyAnd mem str P = .ok (P c) := by
  have he : str.empty = false := by
    simp [string_view.empty]; omega
  simp [nonemptyAnd, he, string_view.at, hsize, readByte_of_drop mem str.data c cs hmem, bind,
    Except.bind, pure, Except.pure]

theorem DecodeBencodeInteger_bencoded (mem : List Char) (str : string_view) (n : Int)
    (rest : List Char)
    (hmem : mem.drop str.data = 'i' :: (to_string_long_long n ++ 'e' :: rest))
    (hsize : (to_string_long_long n).length + 1 ≤ str.size) (hlt : str.size < SIZE_MODULUS)
    (hlo : LLONG_MIN ≤ n) (hhi : n ≤ LLONG_MAX) :
    DecodeBencodeInteger mem str = .ok (n, str.data + 1 + (to_string_long_long n).length + 1) := by
  have h0 := nonemptyAnd_of_drop mem str (fun c => c == 'i') _ _ hmem (by omega)
  have h1 := drop_succ_of_drop mem str.data _ _ hmem
  have hsz : size_of_diff str.size 1 = str.size - 1 := size_of_diff_eq _ _ (by omega) (by omega)
  have h2 := from_chars_long_long_decimal mem (str.data + 1) (str.data + 1 + (str.size - 1)) n
    'e' rest h1 isDigit_false_e (by omega) hlo hhi 0
  have h3 := drop_add_of_drop mem (str.data + 1) _ _ h1
  have h4 := readByte_of_drop mem _ _ _ h3
  simp [DecodeBencodeInteger, h0, PARSE_ERROR_ASSERT, bind, Except.bind, pure, Except.pure,
    string_view.remove_prefix, string_view.cbegin, string_view.cend, hsz, h2, h4]

theorem DecodeBencodeString_bencoded (mem : List Char) (str : string_view) (s : List Char)
    (rest : List Char)
    (hmem : mem.drop str.data = to_string_size_t s.length ++ ':' :: (s ++ rest))
    (hsize : (to_string_size_t s.length).length ≤ str.size)
    (hs : s.length < SIZE_MODULUS) :
    DecodeBencodeString mem str =
      .ok (s, str.data + (to_string_size_t s.length).length + 1 + s.length) := by
  obtain ⟨d, ds, hd, hdig⟩ := to_string_size_t_head s.length
  have hpos := to_string_size_t_pos s.length
  have hmem0 : mem.drop str.data = d :: (ds ++ ':' :: (s ++ rest)) := by rw [hmem, hd]; rfl
  have h0 := nonemptyAnd_of_drop mem str Char.isDigit _ _ hmem0 (by omega)
  have h2 := from_chars_size_t_decimal mem str.data (str.data + str.size) s.length
    ':' (s ++ rest) hmem isDigit_false_colon (by omega) hs 0
  have h3 := drop_add_of_drop mem str.data _ _ hmem
  have h4 := readByte_of_drop mem _ _ _ h3
  have h5 := drop_succ_of_drop mem _ _ _ h3
  have h6 := lt_length_of_drop mem _ _ _ h3
  have h7 : str.data + (to_string_size_t s.length).length + 1 + s.length ≤ mem.length := by
    have := congrArg List.length h5
    simp at this
    omega
  have h8 : readRange mem (str.data + (to_string_size_t s.length).length + 1)
      (str.data + (to_string_size_t s.length).length + 1 + s.length) = .ok s := by
    simp [readRange, h7, h5]
  simp [DecodeBencodeString, h0, hdig, PARSE_ERROR_ASSERT, bind, Except.bind, pure, Except.pure,
    string_view.cbegin, string_view.cend, h2, h4, h8]

theorem DecodeBencodeList_while_e (mem : List Char) (fuel : Nat) (str : string_view)
    (result : List BencodeElement) (pos : Nat) (h : readByte mem pos = .ok 'e') :
    DecodeBencodeList_while mem (fuel + 1) str result pos = .ok (result, pos + 1) := by
  simp [DecodeBencodeList_while, h, bind, Except.bind, pure, Except.pure]

theorem DecodeBencodeList_while_i (mem : List Char) (fuel : Nat) (str : string_view)
    (result : List BencodeElement) (pos : Nat) (integer : Int) (end_ : Nat)
    (h : readByte mem pos = .ok 'i')
    (hd : DecodeBencodeInteger mem ⟨pos, size_of_diff str.cend pos⟩ = .ok (integer, end_)) :
    DecodeBencodeList_while mem (fuel + 1) str result pos =
      DecodeBencodeList_while mem fuel str (result ++ [.integer integer]) end_ := by
  simp [DecodeBencodeList_while, h, hd, bind, Except.bind, pure, Except.pure]

theorem DecodeBencodeList_while_l (mem : List Char) (fuel : Nat) (str : string_view)
    (result : List BencodeElement) (pos : Nat) (list : List BencodeElement) (end_ : Nat)
    (h : readByte mem pos = .ok 'l')
    (hd : DecodeBencodeList mem fuel ⟨pos, size_of_diff str.cend pos⟩ = .ok (list, end_)) :
    DecodeBencodeList_while mem (fuel + 1) str result pos =
      DecodeBencodeList_while mem fuel str (result ++ [.list list]) end_ := by
  simp [DecodeBencodeList_while, h, hd, bind, Except.bind, pure, Except.pure]

theorem DecodeBencodeList_while_d (mem : List Char) (fuel : Nat) (str : string_view)
    (result : List BencodeElement) (pos : Nat) (dict : List (List Char × BencodeElement))
    (end_ : Nat) (h : readByte mem pos = .ok 'd')
    (hd : DecodeBencodeDictionary mem fuel ⟨pos, size_of_diff str.cend pos⟩ = .ok (dict, end_)) :
    DecodeBencodeList_while mem (fuel + 1) str result pos =
      DecodeBencodeList_while mem fuel str (result ++ [.dictionary dict]) end_ := by
  simp [DecodeBencodeList_while, h, hd, bind, Except.bind, pure, Except.pure]

theorem DecodeBencodeList_while_s (mem : List Char) (fuel : Nat) (str : string_view)
    (result : List BencodeElement) (pos : Nat) (c : Char) (s : List Char) (end_ : Nat)
    (h : readByte mem pos = .ok c) (hc : c.isDigit = true)
    (hd : DecodeBencodeString mem ⟨pos, size_of_diff str.cend pos⟩ = .ok (s, end_)) :
    DecodeBencodeList_while mem (fuel + 1) str result pos =
      DecodeBencodeList_while mem fuel str (result ++ [.string s]) end_ := by
  have h1 : c ≠ 'e' := by rintro rfl; cases hc
  have h2 : c ≠ 'i' := by rintro rfl; cases hc
  have h3 : c ≠ 'l' := by rintro rfl; cases hc
  have h4 : c ≠ 'd' := by rintro rfl; cases hc
  simp [DecodeBencodeList_while, h, hd, bind, Except.bind, pure, Except.pure, h1, h2, h3, h4]

theorem DecodeBencodeDictionary_while_e (mem : List Char) (fuel : Nat) (str : string_view)
    (result : List (List Char × BencodeElement)) (pos : Nat) (h : readByte mem pos = .ok 'e') :
    DecodeBencodeDictionary_while mem (fuel + 1) str result pos = .ok (result, pos + 1) := by
  simp [DecodeBencodeDictionary_while, h, bind, Except.bind, pure, Except.pure]

theorem DecodeBencodeDictionary_while_i (mem : List Char) (fuel : Nat) (str : string_view)
    (result : List (List Char × BencodeElement)) (pos : Nat) (c : Char) (key : List Char)
    (mid : Nat) (integer : Int) (end_ : Nat)
    (h : readByte mem pos = .ok c) (hc : c ≠ 'e')
    (hk : DecodeBencodeString mem ⟨pos, size_of_diff str.cend pos⟩ = .ok (key, mid))
    (hv : readByte mem mid = .ok 'i')
    (hd : DecodeBencodeInteger mem
      ( string_view.remove_prefix ⟨pos, size_of_diff str.cend pos⟩ (mid - pos)) =
        .ok (integer, end_)) :
    DecodeBencodeDictionary_while mem (fuel + 1) str result pos =
      DecodeBencodeDictionary_while mem fuel str
        (BencodeDictionary.insert result key (.integer integer)) end_ := by
  simp [DecodeBencodeDictionary_while, h, hc, hk, hv, hd, bind, Except.bind, pure, Except.pure]

theorem DecodeBencodeDictionary_while_l (mem : List Char) (fuel : Nat) (str : string_view)
    (result : List (List Char × BencodeElement)) (pos : Nat) (c : Char) (key : List Char)
    (mid : Nat) (list : List BencodeElement) (end_ : Nat)
    (h : readByte mem pos = .ok c) (hc : c ≠ 'e')
    (hk : DecodeBencodeString mem ⟨pos, size_of_diff str.cend pos⟩ = .ok (key, mid))
    (hv : readByte mem mid = .ok 'l')
    (hd : DecodeBencodeList mem fuel
      ( string_view.remove_prefix ⟨pos, size_of_diff str.cend pos⟩ (mid - pos)) =
        .ok (list, end_)) :
    DecodeBencodeDictionary_while mem (fuel + 1) str result pos =
      DecodeBencodeDictionary_while mem fuel str
        (BencodeDictionary.insert result key (.list list)) end_ := by
  simp [DecodeBencodeDictionary_while, h, hc, hk, hv, hd, bind, Except.bind, pure, Except.pure]

theorem DecodeBencodeDictionary_while_d (mem : List Char) (fuel : Nat) (str : string_view)
    (result : List (List Char × BencodeElement)) (pos : Nat) (c : Char) (key : List Char)
    (mid : Nat) (dict : List (List Char × BencodeElement)) (end_ : Nat)
    (h : readByte mem pos = .ok c) (hc : c ≠ 'e')
    (hk : DecodeBencodeString mem ⟨pos, size_of_diff str.cend pos⟩ = .ok (key, mid))
    (hv : readByte mem mid = .ok 'd')
    (hd : DecodeBencodeDictionary mem fuel
      ( string_view.remove_prefix ⟨pos, size_of_diff str.cend pos⟩ (mid - pos)) =
        .ok (dict, end_)) :
    DecodeBencodeDictionary_while mem (fuel + 1) str result pos =
      DecodeBencodeDictionary_while mem fuel str
        (BencodeDictionary.insert result key (.dictionary dict)) end_ := by
  simp [DecodeBencodeDictionary_while, h, hc, hk, hv, hd, bind, Except.bind, pure, Except.pure]

theorem DecodeBencodeDictionary_while_s (mem : List Char) (fuel : Nat) (str : string_view)
    (result : List (List Char × BencodeElement)) (pos : Nat) (c : Char) (key : List Char)
    (mid : Nat) (c1 : Char) (s : List Char) (end_ : Nat)
    (h : readByte mem pos = .ok c) (hc : c ≠ 'e')
    (hk : DecodeBencodeString mem ⟨pos, size_of_diff str.cend pos⟩ = .ok (key, mid))
    (hv : readByte mem mid = .ok c1) (hc1 : c1.isDigit = true)
    (hd : DecodeBencodeString mem
      ( string_view.remove_prefix ⟨pos, size_of_diff str.cend pos⟩ (mid - pos)) =
        .ok (s, end_)) :
    DecodeBencodeDictionary_while mem (fuel + 1) str result pos =
      DecodeBencodeDictionary_while mem fuel str
        (BencodeDictionary.insert result key (.string s)) end_ := by
  have h2 : c1 ≠ 'i' := by rintro rfl; cases hc1
  have h3 : c1 ≠ 'l' := by rintro rfl; cases hc1
  have h4 : c1 ≠ 'd' := by rintro rfl; cases hc1
  simp [DecodeBencodeDictionary_while, h, hc, hk, hv, hd, bind, Except.bind, pure, Except.pure,
    h2, h3, h4]

theorem DecodeBencodeList_succ (mem : List Char) (fuel : Nat) (str : string_view)
    (hg : nonemptyAnd mem str (fun c => c == 'l') = .ok true) :
    DecodeBencodeList mem (fuel + 1) str =
      DecodeBencodeList_while mem fuel ( string_view.remove_prefix str 1) []
        ( string_view.remove_prefix str 1).cbegin := by
  simp [DecodeBencodeList, hg, PARSE_ERROR_ASSERT, bind, Except.bind]

theorem DecodeBencodeDictionary_succ (mem : List Char) (fuel : Nat) (str : string_view)
    (hg : nonemptyAnd mem str (fun c => c == 'd') = .ok true) :
    DecodeBencodeDictionary mem (fuel + 1) str =
      DecodeBencodeDictionary_while mem fuel ( string_view.remove_prefix str 1) []
        ( string_view.remove_prefix str 1).cbegin := by
  simp [DecodeBencodeDictionary, hg, PARSE_ERROR_ASSERT, bind, Except.bind]

theorem to_string_long_long_pos (n : Int) : 0 < (to_string_long_long n).length := by
  unfold to_string_long_long
  split
  · simp
  · exact to_string_size_t_pos _

theorem bencoded_length_ge (el : BencodeElement) : 2 ≤ (bencoded el).length := by
  cases el with
  | integer n => simp [bencoded]
  | string s => have := to_string_size_t_pos s.length; simp [bencoded]; omega
  | list l => simp [bencoded]
  | dictionary d => simp [bencoded]

theorem bencoded_string_head (s rest : List Char) :
    ∃ c cs, bencoded (.string s) ++ rest = c :: cs ∧ c.isDigit = true := by
  obtain ⟨d, ds, hd, hdig⟩ := to_string_size_t_head s.length
  exact ⟨d, ds ++ ':' :: (s ++ rest), by simp [bencoded, hd], hdig⟩

theorem DecodeBencodeInteger_document (mem : List Char) (str : string_view) (n : Int)
    (rest : List Char) (hmem : mem.drop str.data = bencoded (.integer n) ++ rest)
    (hsize : (bencoded (.integer n)).length ≤ str.size) (hlt : str.size < SIZE_MODULUS)
    (hwf : wellFormed (.integer n) = true) :
    DecodeBencodeInteger mem str = .ok (n, str.data + (bencoded (.integer n)).length) := by
  simp [wellFormed] at hwf
  simp [bencoded] at hmem hsize
  rw [DecodeBencodeInteger_bencoded mem str n rest hmem (by omega) hlt hwf.1 hwf.2]
  simp [bencoded]
  omega

theorem DecodeBencodeString_document (mem : List Char) (str : string_view) (s : List Char)
    (rest : List Char) (hmem : mem.drop str.data = bencoded (.string s) ++ rest)
    (hsize : (bencoded (.string s)).length ≤ str.size)
    (hwf : s.length < SIZE_MODULUS) :
    DecodeBencodeString mem str = .ok (s, str.data + (bencoded (.string s)).length) := by
  simp [bencoded] at hmem hsize
  rw [DecodeBencodeString_bencoded mem str s rest hmem (by omega) hwf]
  simp [bencoded]
  omega

theorem remove_prefix_key (pos cend mid : Nat) (h1 : pos ≤ mid) (h2 : mid ≤ cend)
    (h3 : cend - pos < SIZE_MODULUS) :
    string_view.remove_prefix ⟨pos, size_of_diff cend pos⟩ (mid - pos) = ⟨mid, cend - mid⟩ := by
  have e1 : size_of_diff cend pos = cend - pos := size_of_diff_eq _ _ (by omega) h3
  have e2 : size_of_diff (cend - pos) (mid - pos) = cend - mid := by
    rw [size_of_diff_eq _ _ (by omega) (by omega)]
    omega
  simp only [ string_view.remove_prefix, e1, e2]
  congr 1
  omega

theorem documentsDecode_list (mem : List Char) (fuel : Nat)
    (ih : DocumentsDecode mem fuel) :
    ∀ (l : List BencodeElement) (str : string_view) (rest : List Char),
      wellFormed.items l = true →
      mem.drop str.data = bencoded (.list l) ++ rest →
      (bencoded (.list l)).length ≤ str.size → str.size < SIZE_MODULUS →
      2 * (bencoded (.list l)).length ≤ fuel + 1 →
      DecodeBencodeList mem (fuel + 1) str =
        .ok (decoded.items l, str.data + (bencoded (.list l)).length) := by
  intro l str rest hwf hmem hsize hlt hfuel
  simp [bencoded] at hmem hsize hfuel
  have hg := nonemptyAnd_of_drop mem str (fun c => c == 'l') _ _ hmem (by omega)
  have hsz : size_of_diff str.size 1 = str.size - 1 := size_of_diff_eq _ _ (by omega) (by omega)
  rw [DecodeBencodeList_succ mem fuel str (by simpa using hg)]
  have h1 := drop_succ_of_drop mem str.data _ _ hmem
  have := ih.2.1 l ( string_view.remove_prefix str 1) [] (str.data + 1) rest hwf h1
    (by simp [ string_view.remove_prefix]) (by simp [ string_view.remove_prefix, hsz]; omega)
    (by simp [ string_view.remove_prefix, hsz]; omega) (by omega)
  simp only [string_view.cbegin]
  rw [show ( string_view.remove_prefix str 1).data = str.data + 1 from rfl, this]
  simp [bencoded]
  omega

theorem documentsDecode_dictionary (mem : List Char) (fuel : Nat)
    (ih : DocumentsDecode mem fuel) :
    ∀ (d : List (List Char × BencodeElement)) (str : string_view) (rest : List Char),
      wellFormed.entries d = true →
      mem.drop str.data = bencoded (.dictionary d) ++ rest →
      (bencoded (.dictionary d)).length ≤ str.size → str.size < SIZE_MODULUS →
      2 * (bencoded (.dictionary d)).length ≤ fuel + 1 →
      DecodeBencodeDictionary mem (fuel + 1) str =
        .ok (decoded.entries d [], str.data + (bencoded (.dictionary d)).length) := by
  intro d str rest hwf hmem hsize hlt hfuel
  simp [bencoded] at hmem hsize hfuel
  have hg := nonemptyAnd_of_drop mem str (fun c => c == 'd') _ _ hmem (by omega)
  have hsz : size_of_diff str.size 1 = str.size - 1 := size_of_diff_eq _ _ (by omega) (by omega)
  rw [DecodeBencodeDictionary_succ mem fuel str (by simpa using hg)]
  have h1 := drop_succ_of_drop mem str.data _ _ hmem
  have := ih.2.2.2 d ( string_view.remove_prefix str 1) [] (str.data + 1) rest hwf h1
    (by simp [ string_view.remove_prefix]) (by simp [ string_view.remove_prefix, hsz]; omega)
    (by simp [ string_view.remove_prefix, hsz]; omega) (by omega)
  simp only [string_view.cbegin]
  rw [show ( string_view.remove_prefix str 1).data = str.data + 1 from rfl, this]
  simp [bencoded]
  omega

theorem documentsDecode_list_while (mem : List Char) (fuel : Nat)
    (ih : DocumentsDecode mem fuel) :
    ∀ (l : List BencodeElement) (str : string_view) (acc : List BencodeElement) (pos : Nat)
      (rest : List Char),
      wellFormed.items l = true →
      mem.drop pos = bencoded.items l ++ 'e' :: rest →
      str.data ≤ pos → pos + (bencoded.items l).length ≤ str.data + str.size →
      str.size < SIZE_MODULUS →
      2 * (bencoded.items l).length + 1 ≤ fuel + 1 →
      DecodeBencodeList_while mem (fuel + 1) str acc pos =
        .ok (acc ++ decoded.items l, pos + (bencoded.items l).length + 1) := by
  intro l str acc pos rest hwf hmem hpos hend hlt hfuel
  cases l with
  | nil =>
    simp [bencoded.items] at hmem
    rw [DecodeBencodeList_while_e mem fuel str acc pos (readByte_of_drop mem pos _ _ hmem)]
    simp [bencoded.items, decoded.items]
  | cons x xs =>
    simp only [wellFormed.items, Bool.and_eq_true] at hwf
    simp only [bencoded.items, List.append_assoc, List.length_append] at hmem hend hfuel
    have hx2 := bencoded_length_ge x
    have htl := drop_add_of_drop mem pos _ _ hmem
    have hsz : size_of_diff str.cend pos = str.data + str.size - pos :=
      size_of_diff_eq _ _ (by simp [string_view.cend]; omega) (by simp [string_view.cend]; omega)
    have hnext := ih.2.1 xs str
    have hlen : (bencoded.items (x :: xs)).length = (bencoded x).length + (bencoded.items xs).length := by
      simp [bencoded.items]
    cases x with
    | integer n =>
      have hb : readByte mem pos = .ok 'i' := by
        apply readByte_of_drop mem pos 'i' _
        rw [hmem]; simp [bencoded]; rfl
      have hd := DecodeBencodeInteger_document mem ⟨pos, size_of_diff str.cend pos⟩ n _ hmem
        (by simp only [hsz]; omega) (by simp only [hsz]; omega) hwf.1
      rw [DecodeBencodeList_while_i mem fuel str acc pos n _ hb hd,
        hnext _ _ _ hwf.2 htl (by omega) (by omega) hlt (by omega), hlen]
      simp [decoded.items, decoded]
      omega
    | string s =>
      obtain ⟨c, cs, hc, hdig⟩ := bencoded_string_head s (bencoded.items xs ++ 'e' :: rest)
      have hb : readByte mem pos = .ok c := by
        apply readByte_of_drop mem pos c cs
        rw [hmem, hc]
      have hd := DecodeBencodeString_document mem ⟨pos, size_of_diff str.cend pos⟩ s _ hmem
        (by simp only [hsz]; omega) (by simpa [wellFormed] using hwf.1)
      rw [DecodeBencodeList_while_s mem fuel str acc pos c s _ hb hdig hd,
        hnext _ _ _ hwf.2 htl (by omega) (by omega) hlt (by omega), hlen]
      simp [decoded.items, decoded]
      omega
    | list l1 =>
      have hb : readByte mem pos = .ok 'l' := by
        apply readByte_of_drop mem pos 'l' _
        rw [hmem]; simp [bencoded]; rfl
      have hd := ih.1 l1 ⟨pos, size_of_diff str.cend pos⟩ _ (by simpa [wellFormed] using hwf.1)
        hmem (by simp only [hsz]; omega) (by simp only [hsz]; omega) (by omega)
      rw [DecodeBencodeList_while_l mem fuel str acc pos _ _ hb hd,
        hnext _ _ _ hwf.2 htl (by omega) (by omega) hlt (by omega), hlen]
      simp [decoded.items, decoded]
      omega
    | dictionary d1 =>
      have hb : readByte mem pos = .ok 'd' := by
        apply readByte_of_drop mem pos 'd' _
        rw [hmem]; simp [bencoded]; rfl
      have hd := ih.2.2.1 d1 ⟨pos, size_of_diff str.cend pos⟩ _
        (by simpa [wellFormed] using hwf.1)
        hmem (by simp only [hsz]; omega) (by simp only [hsz]; omega) (by omega)
      rw [DecodeBencodeList_while_d mem fuel str acc pos _ _ hb hd,
        hnext _ _ _ hwf.2 htl (by omega) (by omega) hlt (by omega), hlen]
      simp [decoded.items, decoded]
      omega

/-- One round of the dictionary loop on the document of an entry. -/
theorem DecodeBencodeDictionary_while_entry (mem : List Char) (fuel : Nat)
    (ih : DocumentsDecode mem fuel) (str : string_view)
    (acc : List (List Char × BencodeElement)) (pos : Nat) (key : List Char)
    (x : BencodeElement) (tail : List Char)
    (hkey : key.length < SIZE_MODULUS) (hwf : wellFormed x = true)
    (hmem : mem.drop pos = bencoded (.string key) ++ (bencoded x ++ tail))
    (hpos : str.data ≤ pos)
    (hend : pos + ((bencoded (.string key)).length + (bencoded x).length) ≤ str.data + str.size)
    (hlt : str.size < SIZE_MODULUS) (hfuel : 2 * (bencoded x).length ≤ fuel) :
    DecodeBencodeDictionary_while mem (fuel + 1) str acc pos =
      DecodeBencodeDictionary_while mem fuel str (BencodeDictionary.insert acc key (decoded x))
        (pos + (bencoded (.string key)).length + (bencoded x).length) := by
  have hk2 := bencoded_length_ge (.string key)
  have hx2 := bencoded_length_ge x
  have hmid := drop_add_of_drop mem pos _ _ hmem
  have hsz : size_of_diff str.cend pos = str.data + str.size - pos :=
    size_of_diff_eq _ _ (by simp [string_view.cend]; omega) (by simp [string_view.cend]; omega)
  have hview := remove_prefix_key pos str.cend (pos + (bencoded (.string key)).length)
    (by omega) (by simp [string_view.cend]; omega) (by simp [string_view.cend]; omega)
  obtain ⟨c, cs, hc, hdig⟩ := bencoded_string_head key (bencoded x ++ tail)
  have hb : readByte mem pos = .ok c := by
    apply readByte_of_drop mem pos c cs
    rw [hmem, hc]
  have hce : c ≠ 'e' := by rintro rfl; cases hdig
  have hkd := DecodeBencodeString_document mem ⟨pos, size_of_diff str.cend pos⟩ key _ hmem
    (by simp only [hsz]; omega) hkey
  cases x with
  | integer n =>
    have hv : readByte mem (pos + (bencoded (.string key)).length) = .ok 'i' := by
      apply readByte_of_drop mem _ 'i' _
      rw [hmid]; simp [bencoded]; rfl
    have hd := DecodeBencodeInteger_document mem
      ⟨pos + (bencoded (.string key)).length, str.cend - (pos + (bencoded (.string key)).length)⟩
      n _ hmid
      (by simp [string_view.cend]; omega) (by simp [string_view.cend]; omega) hwf
    dsimp only at hd
    rw [← hview] at hd
    rw [DecodeBencodeDictionary_while_i mem fuel str acc pos c key _ n _ hb hce hkd hv hd]
    simp [decoded]
  | string s =>
    obtain ⟨c1, cs1, hc1, hdig1⟩ := bencoded_string_head s tail
    have hv : readByte mem (pos + (bencoded (.string key)).length) = .ok c1 := by
      apply readByte_of_drop mem _ c1 cs1
      rw [hmid, hc1]
    have hd := DecodeBencodeString_document mem
      ⟨pos + (bencoded (.string key)).length, str.cend - (pos + (bencoded (.string key)).length)⟩
      s _ hmid
      (by simp [string_view.cend]; omega) (by simpa [wellFormed] using hwf)
    dsimp only at hd
    rw [← hview] at hd
    rw [DecodeBencodeDictionary_while_s mem fuel str acc pos c key _ c1 s _ hb hce hkd hv hdig1 hd]
    simp [decoded]
  | list l1 =>
    have hv : readByte mem (pos + (bencoded (.string key)).length) = .ok 'l' := by
      apply readByte_of_drop mem _ 'l' _
      rw [hmid]; simp [bencoded]; rfl
    have hd := ih.1 l1
      ⟨pos + (bencoded (.string key)).length, str.cend - (pos + (bencoded (.string key)).length)⟩
      _ (by simpa [wellFormed] using hwf) hmid
      (by simp [string_view.cend]; omega) (by simp [string_view.cend]; omega) (by omega)
    dsimp only at hd
    rw [← hview] at hd
    rw [DecodeBencodeDictionary_while_l mem fuel str acc pos c key _ _ _ hb hce hkd hv hd]
    simp [decoded]
  | dictionary d1 =>
    have hv : readByte mem (pos + (bencoded (.string key)).length) = .ok 'd' := by
      apply readByte_of_drop mem _ 'd' _
      rw [hmid]; simp [bencoded]; rfl
    have hd := ih.2.2.1 d1
      ⟨pos + (bencoded (.string key)).length, str.cend - (pos + (bencoded (.string key)).length)⟩
      _ (by simpa [wellFormed] using hwf) hmid
      (by simp [string_view.cend]; omega) (by simp [string_view.cend]; omega) (by omega)
    dsimp only at hd
    rw [← hview] at hd
    rw [DecodeBencodeDictionary_while_d mem fuel str acc pos c key _ _ _ hb hce hkd hv hd]
    simp [decoded]

theorem bencoded_entries_cons (key : List Char) (x : BencodeElement)
    (xs : List (List Char × BencodeElement)) :
    bencoded.entries ((key, x) :: xs) =
      bencoded (.string key) ++ (bencoded x ++ bencoded.entries xs) := by
  simp [bencoded.entries, bencoded]

theorem documentsDecode_dictionary_while (mem : List Char) (fuel : Nat)
    (ih : DocumentsDecode mem fuel) :
    ∀ (d : List (List Char × BencodeElement)) (str : string_view)
      (acc : List (List Char × BencodeElement)) (pos : Nat) (rest : List Char),
      wellFormed.entries d = true →
      mem.drop pos = bencoded.entries d ++ 'e' :: rest →
      str.data ≤ pos → pos + (bencoded.entries d).length ≤ str.data + str.size →
      str.size < SIZE_MODULUS →
      2 * (bencoded.entries d).length + 1 ≤ fuel + 1 →
      DecodeBencodeDictionary_while mem (fuel + 1) str acc pos =
        .ok (decoded.entries d acc, pos + (bencoded.entries d).length + 1) := by
  intro d str acc pos rest hwf hmem hpos hend hlt hfuel
  cases d with
  | nil =>
    simp [bencoded.entries] at hmem
    rw [DecodeBencodeDictionary_while_e mem fuel str acc pos (readByte_of_drop mem pos _ _ hmem)]
    simp [bencoded.entries, decoded.entries]
  | cons entry xs =>
    obtain ⟨key, x⟩ := entry
    simp only [wellFormed.entries, Bool.and_eq_true, decide_eq_true_eq] at hwf
    simp only [bencoded_entries_cons, List.append_assoc, List.length_append] at hmem hend hfuel ⊢
    have hk2 := bencoded_length_ge (.string key)
    have hx2 := bencoded_length_ge x
    have htl := drop_add_of_drop mem _ _ _ (drop_add_of_drop mem pos _ _ hmem)
    rw [DecodeBencodeDictionary_while_entry mem fuel ih str acc pos key x _ hwf.1 hwf.2.1 hmem
      hpos (by omega) hlt (by omega),
      ih.2.2.2 xs str _ _ _ hwf.2.2 htl (by omega) (by omega) hlt (by omega)]
    simp [decoded.entries]
    omega

theorem documentsDecode (mem : List Char) : ∀ fuel, DocumentsDecode mem fuel := by
  intro fuel
  induction fuel with
  | zero =>
    refine ⟨?_, ?_, ?_, ?_⟩
    · intro l str rest _ _ _ _ h
      have := bencoded_length_ge (.list l)
      omega
    · intro l str acc pos rest _ _ _ _ _ h
      omega
    · intro d str rest _ _ _ _ h
      have := bencoded_length_ge (.dictionary d)
      omega
    · intro d str acc pos rest _ _ _ _ _ h
      omega
  | succ fuel ih =>
    exact ⟨documentsDecode_list mem fuel ih, documentsDecode_list_while mem fuel ih,
      documentsDecode_dictionary mem fuel ih, documentsDecode_dictionary_while mem fuel ih⟩

theorem bencoded_entries_length_ge : ∀ d : List (List Char × BencodeElement),
    d.length ≤ (bencoded.entries d).length := by
  intro d
  induction d with
  | nil => simp
  | cons entry xs ih =>
    obtain ⟨key, x⟩ := entry
    have := bencoded_length_ge x
    simp only [bencoded_entries_cons, List.length_append, List.length_cons]
    omega

/-- The dictionary loop on the documents of several entries followed by anything. -/
theorem DecodeBencodeDictionary_while_entries (mem : List Char) (str : string_view)
    (hlt : str.size < SIZE_MODULUS) :
    ∀ (d : List (List Char × BencodeElement)) (fuel : Nat)
      (acc : List (List Char × BencodeElement)) (pos : Nat) (tail : List Char),
      wellFormed.entries d = true →
      mem.drop pos = bencoded.entries d ++ tail →
      str.data ≤ pos → pos + (bencoded.entries d).length ≤ str.data + str.size →
      2 * (bencoded.entries d).length ≤ fuel →
      DecodeBencodeDictionary_while mem fuel str acc pos =
        DecodeBencodeDictionary_while mem (fuel - d.length) str (decoded.entries d acc)
          (pos + (bencoded.entries d).length) := by
  intro d
  induction d with
  | nil => intro fuel acc pos tail _ _ _ _ _; simp [bencoded.entries, decoded.entries]
  | cons entry xs ih =>
    intro fuel acc pos tail hwf hmem hpos hend hfuel
    obtain ⟨key, x⟩ := entry
    simp only [wellFormed.entries, Bool.and_eq_true, decide_eq_true_eq] at hwf
    simp only [bencoded_entries_cons, List.append_assoc, List.length_append] at hmem hend hfuel ⊢
    have hk2 := bencoded_length_ge (.string key)
    have htl := drop_add_of_drop mem _ _ _ (drop_add_of_drop mem pos _ _ hmem)
    obtain ⟨f, rfl⟩ : ∃ f, fuel = f + 1 := ⟨fuel - 1, by omega⟩
    rw [DecodeBencodeDictionary_while_entry mem f (documentsDecode mem _) str acc
        pos key x _ hwf.1 hwf.2.1 hmem hpos (by omega) hlt (by omega),
      ih f _ _ tail hwf.2.2 htl (by omega) (by omega) (by omega)]
    simp only [decoded.entries, List.length_cons, Nat.add_sub_add_right]
    congr 1
    omega

mutual

theorem bencoded_eq_Decoder : ∀ el : BencodeElement, dictionaryFree el = true →
    bencoded el = details.Decoder el
  | .integer n, _ => by simp [bencoded, details.Decoder]
  | .string s, _ => by simp [bencoded, details.Decoder]
  | .list l, h => by
    have := bencoded_items_eq_forList l (by simpa [dictionaryFree] using h)
    simp [bencoded, details.Decoder, this]
  | .dictionary d, h => by simp [dictionaryFree] at h

theorem bencoded_items_eq_forList : ∀ l : List BencodeElement, dictionaryFree.items l = true →
    bencoded.items l = details.Decoder.forList l
  | [], _ => by simp [bencoded.items, details.Decoder.forList]
  | el :: rest, h => by
    simp only [dictionaryFree.items, Bool.and_eq_true] at h
    simp [bencoded.items, details.Decoder.forList, bencoded_eq_Decoder el h.1,
      bencoded_items_eq_forList rest h.2]

end

mutual

theorem decoded_eq_self : ∀ el : BencodeElement, dictionaryFree el = true → decoded el = el
  | .integer n, _ => by simp [decoded]
  | .string s, _ => by simp [decoded]
  | .list l, h => by
    have := decoded_items_eq_self l (by simpa [dictionaryFree] using h)
    simp [decoded, this]
  | .dictionary d, h => by simp [dictionaryFree] at h

theorem decoded_items_eq_self : ∀ l : List BencodeElement, dictionaryFree.items l = true →
    decoded.items l = l
  | [], _ => by simp [decoded.items]
  | el :: rest, h => by
    simp only [dictionaryFree.items, Bool.and_eq_true] at h
    simp [decoded.items, decoded_eq_self el h.1, decoded_items_eq_self rest h.2]

end

/-- Decoding the document of a well-formed value that fills the whole view. -/
theorem DecodeBencodeElement_document (el : BencodeElement) (tail : List Char)
    (hwf : wellFormed el = true) (hlen : (bencoded el).length < SIZE_MODULUS) :
    DecodeBencodeElement (bencoded el ++ tail) (wholeInput (bencoded el).length) =
      .ok (decoded el) := by
  have h2 := bencoded_length_ge el
  have hdrop : (bencoded el ++ tail).drop (wholeInput (bencoded el).length).data =
      bencoded el ++ tail := by simp [wholeInput]
  have hfuel : 2 * (bencoded el).length ≤ 2 * (bencoded el ++ tail).length + 2 := by
    simp; omega
  obtain ⟨hL, _, hD, _⟩ := documentsDecode (bencoded el ++ tail) (2 * (bencoded el ++ tail).length + 2)
  cases el with
  | integer n =>
    have hat : (wholeInput (bencoded (.integer n)).length).at (bencoded (.integer n) ++ tail) 0
        = .ok 'i' := by
      simp [string_view.at, wholeInput, readByte, bencoded]
    have hd := DecodeBencodeInteger_document _ (wholeInput (bencoded (.integer n)).length) n tail
      hdrop (by simp [wholeInput]) (by simpa [wholeInput] using hlen) hwf
    simp only [wholeInput] at hat hd ⊢
    simp [DecodeBencodeElement, hat, hd, bind, Except.bind, pure, Except.pure, PARSE_ERROR_ASSERT,
      string_view.cend, decoded, -List.length_append]
  | string s =>
    obtain ⟨c, cs, hc, hdig⟩ := bencoded_string_head s tail
    have hat : (wholeInput (bencoded (.string s)).length).at (bencoded (.string s) ++ tail) 0
        = .ok c := by
      have := readByte_of_drop (bencoded (.string s) ++ tail) 0 c cs (by simpa using hc)
      simp only [string_view.at, wholeInput]
      rw [if_pos (by omega)]
      simpa using this
    have hd := DecodeBencodeString_document _ (wholeInput (bencoded (.string s)).length) s tail
      hdrop (by simp [wholeInput]) (by simpa [wellFormed] using hwf)
    have h2 : c ≠ 'i' := by rintro rfl; cases hdig
    have h3 : c ≠ 'l' := by rintro rfl; cases hdig
    have h4 : c ≠ 'd' := by rintro rfl; cases hdig
    simp only [wholeInput] at hat hd ⊢
    simp [DecodeBencodeElement, hat, hd, bind, Except.bind, pure, Except.pure, PARSE_ERROR_ASSERT,
      string_view.cend, decoded, h2, h3, h4]
  | list l =>
    have hat : (wholeInput (bencoded (.list l)).length).at (bencoded (.list l) ++ tail) 0
        = .ok 'l' := by
      simp [string_view.at, wholeInput, readByte, bencoded]
    have hd := hL l (wholeInput (bencoded (.list l)).length) tail
      (by simpa [wellFormed] using hwf)
      hdrop (by simp [wholeInput]) (by simpa [wholeInput] using hlen) hfuel
    simp only [wholeInput] at hat hd ⊢
    simp [DecodeBencodeElement, hat, hd, bind, Except.bind, pure, Except.pure, PARSE_ERROR_ASSERT,
      string_view.cend, decoded, -List.length_append]
  | dictionary d =>
    have hat : (wholeInput (bencoded (.dictionary d)).length).at
        (bencoded (.dictionary d) ++ tail) 0 = .ok 'd' := by
      simp [string_view.at, wholeInput, readByte, bencoded]
    have hd := hD d (wholeInput (bencoded (.dictionary d)).length) tail
      (by simpa [wellFormed] using hwf)
      hdrop (by simp [wholeInput]) (by simpa [wholeInput] using hlen) hfuel
    simp only [wholeInput] at hat hd ⊢
    simp [DecodeBencodeElement, hat, hd, bind, Except.bind, pure, Except.pure, PARSE_ERROR_ASSERT,
      string_view.cend, decoded, -List.length_append]

/-! ## Dictionaries as maps -/

theorem lookup_insert (acc : List (List Char × BencodeElement)) (k key : List Char)
    (v : BencodeElement) :
    (BencodeDictionary.insert acc k v).lookup key =
      match acc.lookup key with
      | some w => some w
      | none => if key = k then some v else none := by
  unfold BencodeDictionary.insert
  by_cases hk : (acc.lookup k).isSome = true
  · rw [if_pos hk]
    cases h : acc.lookup key with
    | some w => rfl
    | none =>
      by_cases e : key = k
      · subst e; rw [h] at hk; cases hk
      · simp [e]
  · rw [if_neg hk, List.lookup_append]
    cases h : acc.lookup key with
    | some w => simp
    | none =>
      by_cases e : key = k
      · subst e; simp [List.lookup]
      · have hb : (key == k) = false := by simpa using e
        simp [List.lookup, e, hb]

theorem lookup_decoded_entries : ∀ (d acc : List (List Char × BencodeElement)) (key : List Char),
    (decoded.entries d acc).lookup key =
      match acc.lookup key with
      | some w => some w
      | none => (d.lookup key).map decoded := by
  intro d
  induction d with
  | nil => intro acc key; cases h : acc.lookup key <;> simp [decoded.entries, h]
  | cons entry rest ih =>
    intro acc key
    obtain ⟨k, v⟩ := entry
    rw [decoded.entries, ih, lookup_insert]
    cases h : acc.lookup key with
    | some w => rfl
    | none =>
      by_cases e : key = k
      · subst e; simp [List.lookup]
      · have hb : (key == k) = false := by simpa using e
        simp [List.lookup, hb, e]

theorem lookup_first (pre post : List (List Char × BencodeElement)) (key : List Char)
    (v : BencodeElement) (hpre : ∀ entry ∈ pre, entry.1 ≠ key) :
    (pre ++ (key, v) :: post).lookup key = some v := by
  induction pre with
  | nil => simp [List.lookup]
  | cons entry rest ih =>
    obtain ⟨k, w⟩ := entry
    have hk : ¬ key = k := fun e => hpre (k, w) (by simp) e.symm
    have hb : (key == k) = false := by simpa using hk
    have := ih (fun entry h => hpre entry (by simp [h]))
    simpa [List.lookup, hb] using this

/-! ## Failures -/

/-- A sequence of two steps that returns: the first step returned, and the second
step returned on its result. -/
theorem bind_eq_ok {α β : Type} {step : Except Failure α} {next : α → Except Failure β}
    {out : β} (h : (step >>= next) = .ok out) :
    ∃ mid, step = .ok mid ∧ next mid = .ok out := by
  match step, h with
  | .ok mid, h => exact ⟨mid, rfl, h⟩
  | .error _, h => cases h

theorem bind_ne_fuel {α β : Type} (x : Except Failure α) (f : α → Except Failure β)
    (hx : x ≠ .error .fuel) (hf : ∀ a, x = .ok a → f a ≠ .error .fuel) :
    (x >>= f) ≠ .error .fuel := by
  cases x with
  | error e => simpa [bind, Except.bind] using hx
  | ok a => exact hf a rfl

/-- A failed assertion on an empty view or on a view inside the buffer throws
`ParseError`. -/
theorem PARSE_ERROR_ASSERT_false (mem : List Char) (str : string_view)
    (hv : str.size = 0 ∨ string_view.inBuffer mem str) :
    PARSE_ERROR_ASSERT mem false str = .error .ParseError := by
  rcases hv with h0 | ⟨h1, h2⟩
  · have : ¬ (STRING_MAX_SIZE < 0) := by decide
    simp [PARSE_ERROR_ASSERT, PARSE_ERROR_MSG, h0, this, bind, Except.bind]
  · have h3 : ¬ (str.size > STRING_MAX_SIZE) := by omega
    by_cases h0 : str.size = 0
    · simp [PARSE_ERROR_ASSERT, PARSE_ERROR_MSG, h3, h0, bind, Except.bind]
    · simp [PARSE_ERROR_ASSERT, PARSE_ERROR_MSG, h3, h0, h2, bind, Except.bind]

theorem DecodeBencodeString_not_digit (mem : List Char) (str : string_view) (c : Char)
    (hv : str.size = 0 ∨ string_view.inBuffer mem str)
    (h : readByte mem str.data = .ok c) (hc : c.isDigit = false) :
    DecodeBencodeString mem str = .error .ParseError := by
  have ha := PARSE_ERROR_ASSERT_false mem str hv
  by_cases he : str.size = 0
  · simp [DecodeBencodeString, nonemptyAnd, string_view.empty, he, ha, bind, Except.bind]
  · have hp : 0 < str.size := by omega
    simp [DecodeBencodeString, nonemptyAnd, string_view.empty, he, string_view.at, hp, h, hc,
      ha, bind, Except.bind, pure, Except.pure]

theorem digitRun_ge (last : Nat) : ∀ (bytes : List Char) (p acc n q : Nat),
    digitRun last bytes p acc = .ok (n, q) → p ≤ q := by
  intro bytes
  induction bytes with
  | nil =>
    intro p acc n q h
    unfold digitRun at h
    split at h
    · cases h
    · cases h; exact Nat.le_refl _
  | cons c cs ih =>
    intro p acc n q h
    unfold digitRun at h
    split at h
    · have := ih _ _ _ _ h
      omega
    · cases h; exact Nat.le_refl _

theorem from_chars_size_t_ge (mem : List Char) (first last result : Nat)
    (r : from_chars_result Nat) (h : from_chars_size_t mem first last result = .ok r) :
    first ≤ r.ptr := by
  unfold from_chars_size_t at h
  cases hrun : digitRun last (mem.drop first) first 0 with
  | error e => simp [hrun, bind, Except.bind] at h
  | ok v =>
    obtain ⟨n, q⟩ := v
    have hq := digitRun_ge last _ _ _ _ _ hrun
    simp only [hrun, bind, Except.bind, pure, Except.pure] at h
    split at h
    · cases h; exact Nat.le_refl _
    · split at h <;> (cases h; exact hq)

/-- The position `DecodeBencodeString` returns lies behind the start of its view. -/
theorem DecodeBencodeString_end_gt (mem : List Char) (str : string_view) (s : List Char)
    (end_ : Nat) (h : DecodeBencodeString mem str = .ok (s, end_)) : str.data < end_ := by
  unfold DecodeBencodeString at h
  obtain ⟨b, _, h⟩ := bind_eq_ok h
  obtain ⟨_, _, h⟩ := bind_eq_ok h
  obtain ⟨r, hr, h⟩ := bind_eq_ok h
  obtain ⟨c, _, h⟩ := bind_eq_ok h
  obtain ⟨_, _, h⟩ := bind_eq_ok h
  obtain ⟨_, _, h⟩ := bind_eq_ok h
  obtain ⟨t, _, h⟩ := bind_eq_ok h
  have hge := from_chars_size_t_ge _ _ _ _ _ hr
  simp only [string_view.cbegin] at hge
  cases h
  omega

theorem DecodeBencodeDictionary_while_key (mem : List Char) (fuel : Nat) (str : string_view)
    (result : List (List Char × BencodeElement)) (pos : Nat) (c : Char)
    (hv : size_of_diff str.cend pos = 0 ∨
      string_view.inBuffer mem ⟨pos, size_of_diff str.cend pos⟩)
    (h : readByte mem pos = .ok c) (hdig : c.isDigit = false) (he : c ≠ 'e') :
    DecodeBencodeDictionary_while mem (fuel + 1) str result pos = .error .ParseError := by
  have hs := DecodeBencodeString_not_digit mem ⟨pos, size_of_diff str.cend pos⟩ c hv h hdig
  simp [DecodeBencodeDictionary_while, h, he, hs, bind, Except.bind]

theorem DecodeBencodeDictionary_while_unknown (mem : List Char) (fuel : Nat) (str : string_view)
    (result : List (List Char × BencodeElement)) (pos : Nat) (c0 : Char) (key : List Char)
    (mid : Nat) (c : Char)
    (h0 : readByte mem pos = .ok c0) (he : c0 ≠ 'e')
    (hk : DecodeBencodeString mem ⟨pos, size_of_diff str.cend pos⟩ = .ok (key, mid))
    (hin : string_view.inBuffer mem
      ( string_view.remove_prefix ⟨pos, size_of_diff str.cend pos⟩ (mid - pos)))
    (h : readByte mem mid = .ok c)
    (hdig : c.isDigit = false) (hi : c ≠ 'i') (hl : c ≠ 'l') (hd : c ≠ 'd') :
    DecodeBencodeDictionary_while mem (fuel + 1) str result pos = .error .ParseError := by
  have hmid : pos < mid := DecodeBencodeString_end_gt mem _ key mid hk
  have hdata : ( string_view.remove_prefix ⟨pos, size_of_diff str.cend pos⟩ (mid - pos)).data
      = mid := by
    simp only [ string_view.remove_prefix]
    omega
  have hs := DecodeBencodeString_not_digit mem
    ( string_view.remove_prefix ⟨pos, size_of_diff str.cend pos⟩ (mid - pos)) c
    (Or.inr hin) (by rw [hdata]; exact h) hdig
  simp [DecodeBencodeDictionary_while, h0, he, hk, h, hi, hl, hd, hs, bind, Except.bind]

/-- Behind the end of the view a failed assertion cannot build its message: on the
view `l3:ab` inside the buffer `l3:abcxe`, and on `d3:ab` inside `d3:abcxe`, the
cursor passes the end of the view, the view handed to `DecodeBencodeString` at `x`
has the wrapped size `2^64 - 1`, and the run ends with `std::length_error`. -/
theorem assertion_behind_view_end :
    DecodeBencodeElement "l3:abcxe".toList (wholeInput 5) = .error .length_error ∧
    DecodeBencodeElement "d3:abcxe".toList (wholeInput 5) = .error .length_error :=
  ⟨rfl, rfl⟩

theorem DecodeBencodeElement_dictionary_error (mem : List Char) (str : string_view)
    (e : Failure) (hat : str.at mem 0 = .ok 'd')
    (hd : DecodeBencodeDictionary mem (2 * mem.length + 2) str = .error e) :
    DecodeBencodeElement mem str = .error e := by
  simp [DecodeBencodeElement, hat, hd, bind, Except.bind]

theorem DecodeBencodeElement_list_error (mem : List Char) (str : string_view)
    (e : Failure) (hat : str.at mem 0 = .ok 'l')
    (hd : DecodeBencodeList mem (2 * mem.length + 2) str = .error e) :
    DecodeBencodeElement mem str = .error e := by
  simp [DecodeBencodeElement, hat, hd, bind, Except.bind]

/-! ## Further facts on decimal text, dictionaries and the pretty printer -/

theorem decimalDigits_length_le (fuel : Nat) : ∀ n, (decimalDigits fuel n).length ≤ fuel := by
  induction fuel with
  | zero => intro n; simp [decimalDigits]
  | succ fuel ih =>
    intro n
    unfold decimalDigits
    split
    · simp
    · have := ih (n / 10)
      simp only [List.length_append, List.length_singleton]
      omega

theorem to_string_long_long_length_le (n : Int) :
    (to_string_long_long n).length ≤ n.natAbs + 2 := by
  have := decimalDigits_length_le (n.natAbs + 1) n.natAbs
  unfold to_string_long_long to_string_size_t
  split
  · simp only [List.length_cons]; omega
  · omega

theorem digitRun_run (mem : List Char) (first last : Nat) (ds : List Char) (c : Char)
    (rest : List Char) (hdig : ∀ x ∈ ds, x.isDigit = true)
    (hmem : mem.drop first = ds ++ c :: rest) (hc : c.isDigit = false)
    (hlast : first + ds.length ≤ last) :
    digitRun last (mem.drop first) first 0 = .ok (decimalValue ds, first + ds.length) := by
  rw [hmem, digitRun_append last _ _ first 0 hdig hlast, digitRun_stop last c rest _ _ hc]
  rfl

theorem insert_of_absent (acc : List (List Char × BencodeElement)) (key : List Char)
    (el : BencodeElement) (h : key ∉ acc.map Prod.fst) :
    BencodeDictionary.insert acc key el = acc ++ [(key, el)] := by
  have hl : acc.lookup key = none := by
    rw [List.lookup_eq_none_iff]
    intro p hp
    have : p.1 ≠ key := fun e => h (by rw [← e]; exact List.mem_map_of_mem _ hp)
    simpa [bne_iff_ne] using fun e => this e.symm
  simp [BencodeDictionary.insert, hl]

theorem decoded_entries_of_distinct : ∀ (d acc : List (List Char × BencodeElement)),
    (∀ entry ∈ d, decoded entry.2 = entry.2) → (d.map Prod.fst).Nodup →
    (∀ key ∈ d.map Prod.fst, key ∉ acc.map Prod.fst) →
    decoded.entries d acc = acc ++ d := by
  intro d
  induction d with
  | nil => intro acc _ _ _; simp [decoded.entries]
  | cons entry rest ih =>
    intro acc hval hnd hacc
    obtain ⟨key, el⟩ := entry
    simp only [List.map_cons, List.nodup_cons] at hnd
    have hk : key ∉ acc.map Prod.fst := hacc key (List.mem_cons_self _ _)
    have hv : decoded el = el := hval (key, el) (List.mem_cons_self _ _)
    rw [decoded.entries, hv, insert_of_absent acc key el hk,
      ih _ (fun entry h => hval entry (List.mem_cons_of_mem _ h)) hnd.2 ?_]
    · simp
    · intro k hkr
      simp only [List.map_append, List.map_cons, List.map_nil, List.mem_append,
        List.mem_singleton, not_or]
      refine ⟨hacc k (List.mem_cons_of_mem _ hkr), ?_⟩
      rintro rfl
      exact hnd.1 hkr

mutual

theorem decoded_eq_self_of_distinctKeys : ∀ el : BencodeElement, distinctKeys el = true →
    decoded el = el
  | .integer n, _ => by simp [decoded]
  | .string s, _ => by simp [decoded]
  | .list l, h => by
    have := decoded_items_of_distinctKeys l (by simpa [distinctKeys] using h)
    simp [decoded, this]
  | .dictionary d, h => by
    simp only [distinctKeys, Bool.and_eq_true, decide_eq_true_eq] at h
    have hv := decoded_values_of_distinctKeys d h.2
    have := decoded_entries_of_distinct d [] hv h.1 (fun _ _ hm => List.not_mem_nil _ hm)
    simp [decoded, this]

theorem decoded_items_of_distinctKeys : ∀ l : List BencodeElement,
    distinctKeys.items l = true → decoded.items l = l
  | [], _ => by simp [decoded.items]
  | el :: rest, h => by
    simp only [distinctKeys.items, Bool.and_eq_true] at h
    simp [decoded.items, decoded_eq_self_of_distinctKeys el h.1,
      decoded_items_of_distinctKeys rest h.2]

theorem decoded_values_of_distinctKeys : ∀ d : List (List Char × BencodeElement),
    distinctKeys.entries d = true → ∀ entry ∈ d, decoded entry.2 = entry.2
  | [], _ => by simp
  | (key, el) :: rest, h => by
    simp only [distinctKeys.entries, Bool.and_eq_true] at h
    intro entry hmem
    rcases List.mem_cons.mp hmem with e | e
    · rw [e]; exact decoded_eq_self_of_distinctKeys el h.1
    · exact decoded_values_of_distinctKeys rest h.2 entry e

end

theorem lookup_of_mem_nodup : ∀ (d : List (List Char × BencodeElement)),
    (d.map Prod.fst).Nodup → ∀ entry ∈ d, d.lookup entry.1 = some entry.2 := by
  intro d
  induction d with
  | nil => intro _ entry h; exact absurd h (List.not_mem_nil _)
  | cons first rest ih =>
    intro hnd entry hmem
    obtain ⟨k, v⟩ := first
    simp only [List.map_cons, List.nodup_cons] at hnd
    rcases List.mem_cons.mp hmem with e | e
    · rw [e]; simp [List.lookup]
    · have hne : (entry.1 == k) = false := by
        have : entry.1 ≠ k := fun h => hnd.1 (by rw [← h]; exact List.mem_map_of_mem _ e)
        simpa using this
      simp only [List.lookup, hne]
      exact ih hnd.2 entry e

/-- The output of the list loop: every rendered item followed by the separator. -/
theorem Prettier_forList_rendered : ∀ (l : List BencodeElement) (rs : List (List Char))
    (output : List Char), List.Forall₂ (fun el r => Prettier el = .ok r) l rs →
    details.Prettier.forList l output =
      .ok (output ++ (rs.map (fun r => r ++ [' ', ',', ' '])).flatten) := by
  intro l
  induction l with
  | nil =>
    intro rs output h
    cases h
    simp [details.Prettier.forList]
  | cons el rest ih =>
    intro rs output h
    cases h with
    | cons hr hrest =>
      rename_i r rs1
      have hr1 : details.Prettier el = .ok r := hr
      simp [details.Prettier.forList, hr1, bind, Except.bind, ih _ _ hrest]

theorem flatten_separated : ∀ (r : List Char) (rs : List (List Char)) (sep : List Char),
    ((r :: rs).map (fun x => x ++ sep)).flatten = joinWith sep (r :: rs) ++ sep := by
  intro r rs
  induction rs generalizing r with
  | nil => intro sep; simp [joinWith]
  | cons y ys ih =>
    intro sep
    have := ih y sep
    simp only [List.map_cons, List.flatten_cons] at this ⊢
    rw [this]
    simp [joinWith]

/-- A non-empty list whose items render: the rendered items joined by ` , `
between `[` and `]`. -/
theorem Prettier_list_join (el : BencodeElement) (rest : List BencodeElement)
    (r : List Char) (rs : List (List Char))
    (h : List.Forall₂ (fun el r => Prettier el = .ok r) (el :: rest) (r :: rs))
    (hlen : (joinWith [' ', ',', ' '] (r :: rs)).length + 4 < SIZE_MODULUS) :
    Prettier (.list (el :: rest)) = .ok (['['] ++ joinWith [' ', ',', ' '] (r :: rs) ++ [']']) := by
  have hout := Prettier_forList_rendered (el :: rest) (r :: rs) ['['] h
  rw [flatten_separated] at hout
  have hsz : size_of_diff (['['] ++ (joinWith [' ', ',', ' '] (r :: rs) ++ [' ', ',', ' '])).length 3
      = (joinWith [' ', ',', ' '] (r :: rs)).length + 1 := by
    rw [size_of_diff_eq _ _ (by simp) (by simp; omega)]
    simp
  have htake : List.take ((joinWith [' ', ',', ' '] (r :: rs)).length + 1)
      (['['] ++ (joinWith [' ', ',', ' '] (r :: rs) ++ [' ', ',', ' '])) =
      ['['] ++ joinWith [' ', ',', ' '] (r :: rs) := by
    rw [← List.append_assoc]
    exact List.take_left' (by simp)
  simp only [Prettier, details.Prettier, hout, bind, Except.bind, hsz, string_erase, pure,
    Except.pure]
  rw [if_neg (by simp), htake]

/-! ## Progress and budget -/

theorem readByte_ne_fuel (mem : List Char) (p : Nat) : readByte mem p ≠ .error .fuel := by
  unfold readByte
  split <;> simp

theorem readByte_lt (mem : List Char) (p : Nat) (c : Char) (h : readByte mem p = .ok c) :
    p < mem.length := by
  unfold readByte at h
  split at h
  · rename_i hc
    by_contra hp
    rw [List.getElem?_eq_none (by omega)] at hc
    cases hc
  · cases h

theorem PARSE_ERROR_MSG_ne_fuel (mem : List Char) (str : string_view) :
    PARSE_ERROR_MSG mem str ≠ .error .fuel := by
  unfold PARSE_ERROR_MSG
  split_ifs <;> simp

theorem PARSE_ERROR_ASSERT_ne_fuel (mem : List Char) (p : Bool) (str : string_view) :
    PARSE_ERROR_ASSERT mem p str ≠ .error .fuel := by
  unfold PARSE_ERROR_ASSERT
  split
  · simp
  · exact bind_ne_fuel _ _ (PARSE_ERROR_MSG_ne_fuel _ _) (fun _ _ => by simp)

theorem nonemptyAnd_ne_fuel (mem : List Char) (str : string_view) (P : Char → Bool) :
    nonemptyAnd mem str P ≠ .error .fuel := by
  unfold nonemptyAnd
  split
  · simp
  · refine bind_ne_fuel _ _ ?_ (fun a _ => by simp [pure, Except.pure])
    unfold string_view.at
    split
    · exact readByte_ne_fuel _ _
    · simp

theorem nonemptyAnd_true (mem : List Char) (str : string_view) (P : Char → Bool)
    (h : nonemptyAnd mem str P = .ok true) : str.data < mem.length := by
  unfold nonemptyAnd at h
  split at h
  · cases h
  · obtain ⟨c, hc, _⟩ := bind_eq_ok h
    unfold string_view.at at hc
    split at hc
    · have := readByte_lt mem _ c hc
      omega
    · cases hc

theorem PARSE_ERROR_ASSERT_ok (mem : List Char) (p : Bool) (str : string_view) (u : Unit)
    (h : PARSE_ERROR_ASSERT mem p str = .ok u) : p = true := by
  unfold PARSE_ERROR_ASSERT at h
  split at h
  · assumption
  · obtain ⟨_, _, h⟩ := bind_eq_ok h
    cases h

theorem digitRun_ne_fuel (last : Nat) : ∀ (bytes : List Char) (p acc : Nat),
    digitRun last bytes p acc ≠ .error .fuel := by
  intro bytes
  induction bytes with
  | nil => intro p acc; unfold digitRun; split <;> simp
  | cons c cs ih =>
    intro p acc
    unfold digitRun
    split
    · exact ih _ _
    · simp

theorem from_chars_size_t_ne_fuel (mem : List Char) (first last result : Nat) :
    from_chars_size_t mem first last result ≠ .error .fuel := by
  unfold from_chars_size_t
  refine bind_ne_fuel _ _ (digitRun_ne_fuel _ _ _ _) ?_
  intro a _
  obtain ⟨n, ptr⟩ := a
  dsimp only
  split
  · simp [pure, Except.pure]
  · split <;> simp [pure, Except.pure]

theorem from_chars_long_long_ne_fuel (mem : List Char) (first last : Nat) (result : Int) :
    from_chars_long_long mem first last result ≠ .error .fuel := by
  have hjp : ∀ c : Char, (do
      let (n, ptr) ← digitRun last (mem.drop (if first < last && c == '-' then first + 1 else first))
        (if first < last && c == '-' then first + 1 else first) 0
      let v : Int := if first < last && c == '-' then -(n : Int) else (n : Int)
      if ptr = (if first < last && c == '-' then first + 1 else first) then
        pure ⟨first, .invalid_argument, result⟩
      else if LLONG_MIN ≤ v ∧ v ≤ LLONG_MAX then pure ⟨ptr, .ok, v⟩
      else pure ⟨ptr, .result_out_of_range, result⟩ : Except Failure (from_chars_result Int))
        ≠ .error .fuel := by
    intro c
    refine bind_ne_fuel _ _ (digitRun_ne_fuel _ _ _ _) ?_
    intro a _
    obtain ⟨n, ptr⟩ := a
    dsimp only
    split_ifs <;> simp [pure, Except.pure]
  unfold from_chars_long_long
  dsimp only
  split
  · exact bind_ne_fuel _ _ (readByte_ne_fuel _ _) (fun c _ => hjp c)
  · exact bind_ne_fuel _ _ (by simp [pure, Except.pure]) (fun c _ => hjp c)

theorem from_chars_long_long_ge (mem : List Char) (first last : Nat) (result : Int)
    (r : from_chars_result Int) (h : from_chars_long_long mem first last result = .ok r) :
    first ≤ r.ptr := by
  have hjp : ∀ c : Char, (do
      let (n, ptr) ← digitRun last (mem.drop (if first < last && c == '-' then first + 1 else first))
        (if first < last && c == '-' then first + 1 else first) 0
      let v : Int := if first < last && c == '-' then -(n : Int) else (n : Int)
      if ptr = (if first < last && c == '-' then first + 1 else first) then
        pure ⟨first, .invalid_argument, result⟩
      else if LLONG_MIN ≤ v ∧ v ≤ LLONG_MAX then pure ⟨ptr, .ok, v⟩
      else pure ⟨ptr, .result_out_of_range, result⟩ : Except Failure (from_chars_result Int))
        = .ok r → first ≤ r.ptr := by
    intro c h
    obtain ⟨a, ha, h⟩ := bind_eq_ok h
    obtain ⟨n, ptr⟩ := a
    have hge := digitRun_ge _ _ _ _ _ _ ha
    dsimp only at h
    split_ifs at h hge <;> simp only [pure, Except.pure, Except.ok.injEq] at h <;>
      subst h <;> simp only [] <;> omega
  unfold from_chars_long_long at h
  dsimp only at h
  split at h
  · obtain ⟨c, _, h⟩ := bind_eq_ok h
    exact hjp c h
  · obtain ⟨c, _, h⟩ := bind_eq_ok h
    exact hjp c h

theorem readRange_ne_fuel (mem : List Char) (first last : Nat) :
    readRange mem first last ≠ .error .fuel := by
  unfold readRange
  split <;> simp

theorem DecodeBencodeInteger_ne_fuel (mem : List Char) (str : string_view) :
    DecodeBencodeInteger mem str ≠ .error .fuel := by
  unfold DecodeBencodeInteger
  refine bind_ne_fuel _ _ (nonemptyAnd_ne_fuel _ _ _) (fun b _ => ?_)
  refine bind_ne_fuel _ _ (PARSE_ERROR_ASSERT_ne_fuel _ _ _) (fun _ _ => ?_)
  refine bind_ne_fuel _ _ (from_chars_long_long_ne_fuel _ _ _ _) (fun r _ => ?_)
  refine bind_ne_fuel _ _ (PARSE_ERROR_ASSERT_ne_fuel _ _ _) (fun _ _ => ?_)
  refine bind_ne_fuel _ _ (readByte_ne_fuel _ _) (fun c _ => ?_)
  refine bind_ne_fuel _ _ (PARSE_ERROR_ASSERT_ne_fuel _ _ _) (fun _ _ => ?_)
  simp [pure, Except.pure]

theorem DecodeBencodeString_ne_fuel (mem : List Char) (str : string_view) :
    DecodeBencodeString mem str ≠ .error .fuel := by
  unfold DecodeBencodeString
  refine bind_ne_fuel _ _ (nonemptyAnd_ne_fuel _ _ _) (fun b _ => ?_)
  refine bind_ne_fuel _ _ (PARSE_ERROR_ASSERT_ne_fuel _ _ _) (fun _ _ => ?_)
  refine bind_ne_fuel _ _ (from_chars_size_t_ne_fuel _ _ _ _) (fun r _ => ?_)
  refine bind_ne_fuel _ _ (readByte_ne_fuel _ _) (fun c _ => ?_)
  refine bind_ne_fuel _ _ (PARSE_ERROR_ASSERT_ne_fuel _ _ _) (fun _ _ => ?_)
  refine bind_ne_fuel _ _ (PARSE_ERROR_ASSERT_ne_fuel _ _ _) (fun _ _ => ?_)
  refine bind_ne_fuel _ _ (readRange_ne_fuel _ _ _) (fun s _ => ?_)
  simp [pure, Except.pure]

/-- The position `DecodeBencodeInteger` returns lies behind the start of its view. -/
theorem DecodeBencodeInteger_end_gt (mem : List Char) (str : string_view) (v : Int × Nat)
    (h : DecodeBencodeInteger mem str = .ok v) : str.data < v.2 := by
  unfold DecodeBencodeInteger at h
  obtain ⟨b, _, h⟩ := bind_eq_ok h
  obtain ⟨_, _, h⟩ := bind_eq_ok h
  obtain ⟨r, hr, h⟩ := bind_eq_ok h
  obtain ⟨_, _, h⟩ := bind_eq_ok h
  obtain ⟨c, _, h⟩ := bind_eq_ok h
  obtain ⟨_, _, h⟩ := bind_eq_ok h
  have hge := from_chars_long_long_ge _ _ _ _ _ hr
  simp only [string_view.cbegin, string_view.remove_prefix] at hge
  cases h
  show str.data < r.ptr + 1
  omega

/-- Every successful call of the list and dictionary routines and of their loops
returns a position behind the one it started at. -/
theorem loops_progress (mem : List Char) : ∀ fuel : Nat,
    (∀ (str : string_view) (v : List BencodeElement × Nat),
      DecodeBencodeList mem fuel str = .ok v → str.data < v.2) ∧
    (∀ (str : string_view) (result : List BencodeElement) (pos : Nat)
      (v : List BencodeElement × Nat),
      DecodeBencodeList_while mem fuel str result pos = .ok v → pos < v.2) ∧
    (∀ (str : string_view) (v : List (List Char × BencodeElement) × Nat),
      DecodeBencodeDictionary mem fuel str = .ok v → str.data < v.2) ∧
    (∀ (str : string_view) (result : List (List Char × BencodeElement)) (pos : Nat)
      (v : List (List Char × BencodeElement) × Nat),
      DecodeBencodeDictionary_while mem fuel str result pos = .ok v → pos < v.2) := by
  intro fuel
  induction fuel with
  | zero =>
    refine ⟨?_, ?_, ?_, ?_⟩
    · intro str v h; simp [DecodeBencodeList] at h
    · intro str result pos v h; simp [DecodeBencodeList_while] at h
    · intro str v h; simp [DecodeBencodeDictionary] at h
    · intro str result pos v h; simp [DecodeBencodeDictionary_while] at h
  | succ fuel ih =>
    obtain ⟨ihL, ihLW, ihD, ihDW⟩ := ih
    refine ⟨?_, ?_, ?_, ?_⟩
    · intro str v h
      rw [DecodeBencodeList] at h
      obtain ⟨b, _, h⟩ := bind_eq_ok h
      obtain ⟨_, _, h⟩ := bind_eq_ok h
      have := ihLW _ _ _ _ h
      simp only [string_view.cbegin, string_view.remove_prefix] at this
      omega
    · intro str result pos v h
      rw [DecodeBencodeList_while] at h
      obtain ⟨c, _, h⟩ := bind_eq_ok h
      dsimp only at h
      split_ifs at h
      · obtain ⟨a, ha, h⟩ := bind_eq_ok h
        have h1 := DecodeBencodeInteger_end_gt mem _ a ha
        have h2 := ihLW _ _ _ _ h
        dsimp only at h1
        omega
      · obtain ⟨a, ha, h⟩ := bind_eq_ok h
        have h1 := ihL _ a ha
        have h2 := ihLW _ _ _ _ h
        dsimp only at h1
        omega
      · obtain ⟨a, ha, h⟩ := bind_eq_ok h
        have h1 := ihD _ a ha
        have h2 := ihLW _ _ _ _ h
        dsimp only at h1
        omega
      · obtain ⟨a, ha, h⟩ := bind_eq_ok h
        have h1 := DecodeBencodeString_end_gt mem _ a.1 a.2 ha
        have h2 := ihLW _ _ _ _ h
        dsimp only at h1
        omega
      · cases h
        exact Nat.lt_succ_self _
    · intro str v h
      rw [DecodeBencodeDictionary] at h
      obtain ⟨b, _, h⟩ := bind_eq_ok h
      obtain ⟨_, _, h⟩ := bind_eq_ok h
      have := ihDW _ _ _ _ h
      simp only [string_view.cbegin, string_view.remove_prefix] at this
      omega
    · intro str result pos v h
      rw [DecodeBencodeDictionary_while] at h
      obtain ⟨c, _, h⟩ := bind_eq_ok h
      dsimp only at h
      split_ifs at h
      · obtain ⟨k, hk, h⟩ := bind_eq_ok h
        have hk1 := DecodeBencodeString_end_gt mem _ k.1 k.2 hk
        dsimp only at hk1 h
        obtain ⟨c1, _, h⟩ := bind_eq_ok h
        have hview : ( string_view.remove_prefix
            ⟨pos, size_of_diff str.cend pos⟩ (k.2 - pos)).data = k.2 := by
          simp only [ string_view.remove_prefix]
          omega
        split_ifs at h
        · obtain ⟨a, ha, h⟩ := bind_eq_ok h
          have h1 := DecodeBencodeInteger_end_gt mem _ a ha
          have h2 := ihDW _ _ _ _ h
          rw [hview] at h1
          omega
        · obtain ⟨a, ha, h⟩ := bind_eq_ok h
          have h1 := ihL _ a ha
          have h2 := ihDW _ _ _ _ h
          rw [hview] at h1
          omega
        · obtain ⟨a, ha, h⟩ := bind_eq_ok h
          have h1 := ihD _ a ha
          have h2 := ihDW _ _ _ _ h
          rw [hview] at h1
          omega
        · obtain ⟨a, ha, h⟩ := bind_eq_ok h
          have h1 := DecodeBencodeString_end_gt mem _ a.1 a.2 ha
          have h2 := ihDW _ _ _ _ h
          rw [hview] at h1
          omega
      · cases h
        exact Nat.lt_succ_self _

/-- With a budget of twice the number of bytes from the start position to the end
of the buffer, the list and dictionary routines and their loops do not use up the
budget. -/
theorem loops_ne_fuel (mem : List Char) : ∀ fuel : Nat,
    (∀ str : string_view, 2 * (mem.length - str.data) ≤ fuel → 1 ≤ fuel →
      DecodeBencodeList mem fuel str ≠ .error .fuel) ∧
    (∀ (str : string_view) (result : List BencodeElement) (pos : Nat),
      2 * (mem.length - pos) + 1 ≤ fuel →
      DecodeBencodeList_while mem fuel str result pos ≠ .error .fuel) ∧
    (∀ str : string_view, 2 * (mem.length - str.data) ≤ fuel → 1 ≤ fuel →
      DecodeBencodeDictionary mem fuel str ≠ .error .fuel) ∧
    (∀ (str : string_view) (result : List (List Char × BencodeElement)) (pos : Nat),
      2 * (mem.length - pos) + 1 ≤ fuel →
      DecodeBencodeDictionary_while mem fuel str result pos ≠ .error .fuel) := by
  intro fuel
  induction fuel with
  | zero =>
    refine ⟨?_, ?_, ?_, ?_⟩
    · intro str _ h; omega
    · intro str result pos h; omega
    · intro str _ h; omega
    · intro str result pos h; omega
  | succ fuel ih =>
    obtain ⟨ihL, ihLW, ihD, ihDW⟩ := ih
    obtain ⟨pL, pLW, pD, pDW⟩ := loops_progress mem fuel
    refine ⟨?_, ?_, ?_, ?_⟩
    · intro str hfuel _
      rw [DecodeBencodeList]
      refine bind_ne_fuel _ _ (nonemptyAnd_ne_fuel _ _ _) (fun b hb => ?_)
      refine bind_ne_fuel _ _ (PARSE_ERROR_ASSERT_ne_fuel _ _ _) (fun u hu => ?_)
      have hbt := PARSE_ERROR_ASSERT_ok _ _ _ _ hu
      subst hbt
      have hlt := nonemptyAnd_true _ _ _ hb
      apply ihLW
      simp only [string_view.cbegin, string_view.remove_prefix]
      omega
    · intro str result pos hfuel
      rw [DecodeBencodeList_while]
      refine bind_ne_fuel _ _ (readByte_ne_fuel _ _) (fun c hc => ?_)
      have hlt := readByte_lt _ _ _ hc
      dsimp only
      split_ifs
      · refine bind_ne_fuel _ _ (DecodeBencodeInteger_ne_fuel _ _) (fun a ha => ?_)
        have h1 := DecodeBencodeInteger_end_gt mem _ a ha
        dsimp only at h1
        exact ihLW _ _ _ (by omega)
      · refine bind_ne_fuel _ _ (ihL _ (by dsimp only; omega) (by omega)) (fun a ha => ?_)
        have h1 := pL _ a ha
        dsimp only at h1
        exact ihLW _ _ _ (by omega)
      · refine bind_ne_fuel _ _ (ihD _ (by dsimp only; omega) (by omega)) (fun a ha => ?_)
        have h1 := pD _ a ha
        dsimp only at h1
        exact ihLW _ _ _ (by omega)
      · refine bind_ne_fuel _ _ (DecodeBencodeString_ne_fuel _ _) (fun a ha => ?_)
        have h1 := DecodeBencodeString_end_gt mem _ a.1 a.2 ha
        dsimp only at h1
        exact ihLW _ _ _ (by omega)
      · simp [pure, Except.pure]
    · intro str hfuel _
      rw [DecodeBencodeDictionary]
      refine bind_ne_fuel _ _ (nonemptyAnd_ne_fuel _ _ _) (fun b hb => ?_)
      refine bind_ne_fuel _ _ (PARSE_ERROR_ASSERT_ne_fuel _ _ _) (fun u hu => ?_)
      have hbt := PARSE_ERROR_ASSERT_ok _ _ _ _ hu
      subst hbt
      have hlt := nonemptyAnd_true _ _ _ hb
      apply ihDW
      simp only [string_view.cbegin, string_view.remove_prefix]
      omega
    · intro str result pos hfuel
      rw [DecodeBencodeDictionary_while]
      refine bind_ne_fuel _ _ (readByte_ne_fuel _ _) (fun c hc => ?_)
      have hlt := readByte_lt _ _ _ hc
      dsimp only
      split_ifs
      · refine bind_ne_fuel _ _ (DecodeBencodeString_ne_fuel _ _) (fun k hk => ?_)
        have hk1 := DecodeBencodeString_end_gt mem _ k.1 k.2 hk
        dsimp only at hk1 ⊢
        refine bind_ne_fuel _ _ (readByte_ne_fuel _ _) (fun c1 hc1 => ?_)
        have hlt1 := readByte_lt _ _ _ hc1
        have hview : ( string_view.remove_prefix
            ⟨pos, size_of_diff str.cend pos⟩ (k.2 - pos)).data = k.2 := by
          simp only [ string_view.remove_prefix]
          omega
        split_ifs
        · refine bind_ne_fuel _ _ (DecodeBencodeInteger_ne_fuel _ _) (fun a ha => ?_)
          have h1 := DecodeBencodeInteger_end_gt mem _ a ha
          rw [hview] at h1
          exact ihDW _ _ _ (by omega)
        · refine bind_ne_fuel _ _ (ihL _ (by rw [hview]; omega) (by omega)) (fun a ha => ?_)
          have h1 := pL _ a ha
          rw [hview] at h1
          exact ihDW _ _ _ (by omega)
        · refine bind_ne_fuel _ _ (ihD _ (by rw [hview]; omega) (by omega)) (fun a ha => ?_)
          have h1 := pD _ a ha
          rw [hview] at h1
          exact ihDW _ _ _ (by omega)
        · refine bind_ne_fuel _ _ (DecodeBencodeString_ne_fuel _ _) (fun a ha => ?_)
          have h1 := DecodeBencodeString_end_gt mem _ a.1 a.2 ha
          rw [hview] at h1
          exact ihDW _ _ _ (by omega)
      · simp [pure, Except.pure]

theorem DecodeBencodeElement_ne_fuel (mem : List Char) (str : string_view) :
    DecodeBencodeElement mem str ≠ .error .fuel := by
  obtain ⟨hL, _, hD, _⟩ := loops_ne_fuel mem (2 * mem.length + 2)
  unfold DecodeBencodeElement
  dsimp only
  refine bind_ne_fuel _ _ ?_ (fun c _ => ?_)
  · unfold string_view.at
    split
    · exact readByte_ne_fuel _ _
    · simp
  · split_ifs
    · refine bind_ne_fuel _ _ (DecodeBencodeInteger_ne_fuel _ _) (fun a _ => ?_)
      refine bind_ne_fuel _ _ (PARSE_ERROR_ASSERT_ne_fuel _ _ _) (fun _ _ => ?_)
      simp [pure, Except.pure]
    · refine bind_ne_fuel _ _ (hL _ (by omega) (by omega)) (fun a _ => ?_)
      refine bind_ne_fuel _ _ (PARSE_ERROR_ASSERT_ne_fuel _ _ _) (fun _ _ => ?_)
      simp [pure, Except.pure]
    · refine bind_ne_fuel _ _ (hD _ (by omega) (by omega)) (fun a _ => ?_)
      refine bind_ne_fuel _ _ (PARSE_ERROR_ASSERT_ne_fuel _ _ _) (fun _ _ => ?_)
      simp [pure, Except.pure]
    · refine bind_ne_fuel _ _ (DecodeBencodeString_ne_fuel _ _) (fun a _ => ?_)
      refine bind_ne_fuel _ _ (PARSE_ERROR_ASSERT_ne_fuel _ _ _) (fun _ _ => ?_)
      simp [pure, Except.pure]

/-! ## The claims -/

/-- Claim C1 (code at the failing input): the encoder writes the key `a` of the
dictionary `{a: 1}` without its length prefix, giving `dai1ee`, and the decoder
rejects these bytes with `ParseError`, whatever follows them in the buffer. -/
theorem Decode_dictionary_not_decodable (tail : List Char) :
    Decode (.dictionary [("a".toList, .integer 1)]) = "dai1ee".toList ∧
    DecodeBencodeElement ("dai1ee".toList ++ tail) (wholeInput 6) = .error .ParseError := by
  refine ⟨rfl, ?_⟩
  have hat : (wholeInput 6).at ("dai1ee".toList ++ tail) 0 = .ok 'd' := rfl
  have hg : nonemptyAnd ("dai1ee".toList ++ tail) (wholeInput 6) (fun c => c == 'd') =
      .ok true := rfl
  have hw := DecodeBencodeDictionary_while_key ("dai1ee".toList ++ tail)
    (2 * ("dai1ee".toList ++ tail).length) ( string_view.remove_prefix (wholeInput 6) 1) []
    1 'a' (Or.inr ⟨by decide, by simp [string_view.cend, string_view.remove_prefix,
      wholeInput, size_of_diff, SIZE_MODULUS]⟩) rfl (by decide) (by decide)
  have hd : DecodeBencodeDictionary ("dai1ee".toList ++ tail)
      (2 * ("dai1ee".toList ++ tail).length + 2) (wholeInput 6) = .error .ParseError := by
    rw [show 2 * ("dai1ee".toList ++ tail).length + 2 =
      (2 * ("dai1ee".toList ++ tail).length + 1) + 1 from rfl,
      DecodeBencodeDictionary_succ _ _ _ hg]
    exact hw
  exact DecodeBencodeElement_dictionary_error _ _ _ hat hd

/-- Claim C2 (code at the failing input): the canonical document `d1:ai1ee`
decodes to the dictionary `{a: 1}`, and encoding that dictionary gives `dai1ee`,
which is not the document. -/
theorem Decode_of_decoded_dictionary_differs :
    DecodeBencodeElement "d1:ai1ee".toList (wholeInput 8) =
      .ok (.dictionary [("a".toList, .integer 1)]) ∧
    Decode (.dictionary [("a".toList, .integer 1)]) = "dai1ee".toList ∧
    "dai1ee".toList ≠ "d1:ai1ee".toList :=
  ⟨rfl, rfl, by decide⟩

/-- Claim C3: for every value built from integers, byte strings and lists only
(integers in the `long long` range, lengths in the `std::size_t` range), decoding
the encoding gives the value back, whatever follows the view in the buffer; hence
encoding the decoded value reproduces the bytes. -/
theorem roundtrip_without_dictionaries (el : BencodeElement) (tail : List Char)
    (hfree : dictionaryFree el = true) (hwf : wellFormed el = true)
    (hlen : (Decode el).length < SIZE_MODULUS) :
    DecodeBencodeElement (Decode el ++ tail) (wholeInput (Decode el).length) = .ok el ∧
    (DecodeBencodeElement (Decode el ++ tail) (wholeInput (Decode el).length)).map Decode =
      .ok (Decode el) := by
  have he : Decode el = bencoded el := (bencoded_eq_Decoder el hfree).symm
  have h : DecodeBencodeElement (Decode el ++ tail) (wholeInput (Decode el).length) = .ok el := by
    rw [he] at hlen ⊢
    rw [DecodeBencodeElement_document el tail hwf hlen, decoded_eq_self el hfree]
  exact ⟨h, by rw [h]; rfl⟩

theorem roundtrip_without_dictionaries_witness :
    Decode (.list [.string "spam".toList, .integer 42]) = "l4:spami42ee".toList ∧
    DecodeBencodeElement ("l4:spami42ee".toList ++ []) (wholeInput 12) =
      .ok (.list [.string "spam".toList, .integer 42]) ∧
    (DecodeBencodeElement ("l4:spami42ee".toList ++ []) (wholeInput 12)).map Decode =
      .ok "l4:spami42ee".toList :=
  ⟨rfl, roundtrip_without_dictionaries (.list [.string "spam".toList, .integer 42]) []
    rfl rfl (by decide)⟩

/-- Claim C4: when the production selected by the leading byte returns a value
and an end position that is not the end of the view (in particular one in front
of it), `DecodeBencodeElement` raises `ParseError`. -/
theorem trailing_data_rejected (mem : List Char) (str : string_view) (el : BencodeElement)
    (end_ : Nat) (hview : string_view.inBuffer mem str)
    (hprod : leadingProduction mem str = .ok (el, end_))
    (hend : end_ ≠ str.cend) :
    DecodeBencodeElement mem str = .error .ParseError := by
  have ha := PARSE_ERROR_ASSERT_false mem str (Or.inr hview)
  have hb : (end_ == str.cend) = false := by simpa using hend
  unfold leadingProduction at hprod
  unfold DecodeBencodeElement
  cases hat : str.at mem 0 with
  | error e => simp [hat, bind, Except.bind] at hprod
  | ok c =>
    simp only [hat, bind, Except.bind] at hprod ⊢
    by_cases hi : c = 'i'
    · simp only [hi, if_true] at hprod ⊢
      cases hd : DecodeBencodeInteger mem str with
      | error e => simp [hd] at hprod
      | ok r =>
        simp only [hd, pure, Except.pure, Except.ok.injEq, Prod.mk.injEq] at hprod
        simp [hprod.2, hb, ha]
    · by_cases hl : c = 'l'
      · simp only [hl, if_true] at hprod ⊢
        cases hd : DecodeBencodeList mem (2 * mem.length + 2) str with
        | error e => simp [hd] at hprod
        | ok r =>
          simp [hd, pure, Except.pure] at hprod
          simp [hprod.2, hb, ha]
      · by_cases hdc : c = 'd'
        · simp only [hdc, if_true] at hprod ⊢
          cases hd : DecodeBencodeDictionary mem (2 * mem.length + 2) str with
          | error e => simp [hd] at hprod
          | ok r =>
            simp [hd, pure, Except.pure] at hprod
            simp [hprod.2, hb, ha]
        · simp only [hi, hl, hdc, if_false] at hprod ⊢
          cases hd : DecodeBencodeString mem str with
          | error e => simp [hd] at hprod
          | ok r =>
            simp [hd, pure, Except.pure] at hprod
            simp [hprod.2, hb, ha]

theorem trailing_data_rejected_witness :
    leadingProduction "4:spam5:extra".toList (wholeInput 13) = .ok (.string "spam".toList, 6) ∧
    DecodeBencodeElement "4:spam5:extra".toList (wholeInput 13) = .error .ParseError :=
  ⟨rfl, trailing_data_rejected "4:spam5:extra".toList (wholeInput 13) (.string "spam".toList) 6
    (by decide) rfl (by decide)⟩

/-- Claim C5 (counterexample): in `d1:ai1e1:ai2ee` the key `a` occurs twice; the
decoded dictionary maps it to `1`, the value of the first occurrence, and not to
`2`, the value of the last one. -/
theorem duplicate_key_last_occurrence_refuted :
    DecodeBencodeElement "d1:ai1e1:ai2ee".toList (wholeInput 14) =
      .ok (.dictionary [("a".toList, .integer 1)]) ∧
    DecodeBencodeElement "d1:ai1e1:ai2ee".toList (wholeInput 14) ≠
      .ok (.dictionary [("a".toList, .integer 2)]) := by
  have h : DecodeBencodeElement "d1:ai1e1:ai2ee".toList (wholeInput 14) =
      .ok (.dictionary [("a".toList, .integer 1)]) := rfl
  refine ⟨h, ?_⟩
  rw [h]
  intro hh
  simp at hh

/-- Claim C5 (amended): in the document of a dictionary with the entries
`pre ++ (key, v) :: post`, where `key` is not a key of `pre` (so this is the first
occurrence of `key`, and `post` may hold further ones), the decoded dictionary
maps `key` to the value decoded from `v`. -/
theorem duplicate_key_first_occurrence (pre post : List (List Char × BencodeElement))
    (key : List Char) (v : BencodeElement) (tail : List Char)
    (hpre : ∀ entry ∈ pre, entry.1 ≠ key)
    (hwf : wellFormed (.dictionary (pre ++ (key, v) :: post)) = true)
    (hlen : (bencoded (.dictionary (pre ++ (key, v) :: post))).length < SIZE_MODULUS) :
    ∃ dict, DecodeBencodeElement (bencoded (.dictionary (pre ++ (key, v) :: post)) ++ tail)
        (wholeInput (bencoded (.dictionary (pre ++ (key, v) :: post))).length) =
          .ok (.dictionary dict) ∧
      dict.lookup key = some (decoded v) := by
  refine ⟨decoded.entries (pre ++ (key, v) :: post) [], ?_, ?_⟩
  · rw [DecodeBencodeElement_document _ tail hwf hlen]
    simp [decoded]
  · rw [lookup_decoded_entries, lookup_first pre post key v hpre]
    simp

theorem duplicate_key_first_occurrence_witness :
    bencoded (.dictionary ([] ++ ("a".toList, .integer 1) :: [("a".toList, .integer 2)])) =
      "d1:ai1e1:ai2ee".toList ∧
    ∃ dict, DecodeBencodeElement ("d1:ai1e1:ai2ee".toList ++ []) (wholeInput 14) =
        .ok (.dictionary dict) ∧
      dict.lookup "a".toList = some (.integer 1) :=
  ⟨rfl, duplicate_key_first_occurrence [] [("a".toList, .integer 2)] "a".toList (.integer 1) []
    (by simp) rfl (by decide)⟩

/-- Claim C6 (code on the empty view): `DecodeBencodeElement` ends with
`std::out_of_range`, thrown by `str.at(0)`, for every buffer; the four productions
guard the empty view and raise `ParseError` there. -/
theorem empty_input_out_of_range (mem : List Char) (p : Nat) :
    DecodeBencodeElement mem ⟨p, 0⟩ = .error .out_of_range ∧
    DecodeBencodeInteger mem ⟨p, 0⟩ = .error .ParseError ∧
    DecodeBencodeString mem ⟨p, 0⟩ = .error .ParseError ∧
    (∀ fuel, DecodeBencodeList mem (fuel + 1) ⟨p, 0⟩ = .error .ParseError) ∧
    (∀ fuel, DecodeBencodeDictionary mem (fuel + 1) ⟨p, 0⟩ = .error .ParseError) := by
  have ha := PARSE_ERROR_ASSERT_false mem ⟨p, 0⟩ (Or.inl rfl)
  refine ⟨?_, ?_, ?_, ?_, ?_⟩
  · simp [DecodeBencodeElement, string_view.at, bind, Except.bind]
  · simp [DecodeBencodeInteger, nonemptyAnd, string_view.empty, ha, bind,
      Except.bind]
  · simp [DecodeBencodeString, nonemptyAnd, string_view.empty, ha, bind,
      Except.bind]
  · intro fuel
    simp [DecodeBencodeList, nonemptyAnd, string_view.empty, ha, bind,
      Except.bind]
  · intro fuel
    simp [DecodeBencodeDictionary, nonemptyAnd, string_view.empty, ha, bind,
      Except.bind]

/-- Claim C7 (code at the failing input): on the view `4:spa` the routine
`DecodeBencodeString` raises no `ParseError`.  Over the buffer of a `std::string`
(a NUL byte behind the view) it returns the four bytes `spa\0` and a position one
behind the end of the view; over a buffer that ends with the view it reads
outside the buffer. -/
theorem truncated_string_not_rejected :
    DecodeBencodeString "4:spa\x00".toList (wholeInput 5) = .ok ("spa\x00".toList, 6) ∧
    (wholeInput 5).cend = 5 ∧
    DecodeBencodeString "4:spa".toList (wholeInput 5) = .error .undefined :=
  ⟨rfl, rfl, rfl⟩

/-- Claim C8 (code at the failing inputs): the loops dereference the cursor at
the end of the view.  On the view `l` inside the buffer `le` the routine
`DecodeBencodeList` returns the empty list and a position behind the view; the
same holds for `d` inside `de`.  When the buffer ends with the view, `l`, `d` and
`li1e` end in a read outside the buffer.  With a NUL byte behind the view the
three inputs end in `ParseError`. -/
theorem unterminated_container_reads_behind_view :
    DecodeBencodeList "le".toList 6 ⟨0, 1⟩ = .ok ([], 2) ∧
    DecodeBencodeDictionary "de".toList 6 ⟨0, 1⟩ = .ok ([], 2) ∧
    DecodeBencodeElement "l".toList (wholeInput 1) = .error .undefined ∧
    DecodeBencodeElement "d".toList (wholeInput 1) = .error .undefined ∧
    DecodeBencodeElement "li1e".toList (wholeInput 4) = .error .undefined ∧
    DecodeBencodeElement "l\x00".toList (wholeInput 1) = .error .ParseError ∧
    DecodeBencodeElement "d\x00".toList (wholeInput 1) = .error .ParseError ∧
    DecodeBencodeElement "li1e\x00".toList (wholeInput 4) = .error .ParseError :=
  ⟨rfl, rfl, rfl, rfl, rfl, rfl, rfl, rfl⟩

/-- Claim C10: in a dictionary document whose body consists of the documents of
well-formed entries followed by a byte `c` that is neither an ASCII digit nor `e`
(a key position that does not start a byte string), `DecodeBencodeDictionary`
raises `ParseError` for every sufficient budget, and so does
`DecodeBencodeElement`, whatever follows in the view and in the buffer. The rest
of the view from that byte on, which the failing assertion copies into its
message, is not longer than `std::string::max_size()`. -/
theorem dictionary_key_must_be_string (d : List (List Char × BencodeElement)) (c : Char)
    (rest tail : List Char) (hwf : wellFormed.entries d = true)
    (hdig : c.isDigit = false) (he : c ≠ 'e')
    (hlen : ('d' :: (bencoded.entries d ++ c :: rest)).length < SIZE_MODULUS)
    (hmax : (c :: rest).length ≤ STRING_MAX_SIZE) :
    (∀ fuel, 2 * (bencoded.entries d).length + 2 ≤ fuel →
      DecodeBencodeDictionary ('d' :: (bencoded.entries d ++ c :: rest) ++ tail) fuel
        (wholeInput ('d' :: (bencoded.entries d ++ c :: rest)).length) = .error .ParseError) ∧
    DecodeBencodeElement ('d' :: (bencoded.entries d ++ c :: rest) ++ tail)
      (wholeInput ('d' :: (bencoded.entries d ++ c :: rest)).length) = .error .ParseError := by
  have hn := bencoded_entries_length_ge d
  have hmem0 : ('d' :: (bencoded.entries d ++ c :: rest) ++ tail).drop
      (wholeInput ('d' :: (bencoded.entries d ++ c :: rest)).length).data =
      'd' :: (bencoded.entries d ++ (c :: (rest ++ tail))) := by
    simp [wholeInput]
  have hsize : (wholeInput ('d' :: (bencoded.entries d ++ c :: rest)).length).size =
      (bencoded.entries d).length + rest.length + 2 := by
    simp [wholeInput]; omega
  have hdata : (wholeInput ('d' :: (bencoded.entries d ++ c :: rest)).length).data = 0 := rfl
  have hmemlen : ('d' :: (bencoded.entries d ++ c :: rest) ++ tail).length =
      (bencoded.entries d).length + rest.length + 2 + tail.length := by
    simp; omega
  generalize hm : 'd' :: (bencoded.entries d ++ c :: rest) ++ tail = mem at *
  generalize wholeInput ('d' :: (bencoded.entries d ++ c :: rest)).length = str at *
  have hlt : str.size < SIZE_MODULUS := by
    simp only [List.length_cons, List.length_append] at hlen
    omega
  have hg := nonemptyAnd_of_drop mem str (fun c => c == 'd') _ _ hmem0 (by omega)
  have hsz : size_of_diff str.size 1 = str.size - 1 := size_of_diff_eq _ _ (by omega) (by omega)
  have h1 := drop_succ_of_drop mem str.data _ _ hmem0
  have hall : ∀ fuel, 2 * (bencoded.entries d).length + 2 ≤ fuel →
      DecodeBencodeDictionary mem fuel str = .error .ParseError := by
    intro fuel hfuel
    obtain ⟨f, rfl⟩ : ∃ f, fuel = f + 1 := ⟨fuel - 1, by omega⟩
    rw [DecodeBencodeDictionary_succ mem f str (by simpa using hg)]
    simp only [string_view.cbegin]
    rw [show ( string_view.remove_prefix str 1).data = str.data + 1 from rfl,
      DecodeBencodeDictionary_while_entries mem ( string_view.remove_prefix str 1)
        (by simp [ string_view.remove_prefix, hsz]; omega) d f [] (str.data + 1) _ hwf h1
        (by simp [ string_view.remove_prefix]) (by simp [ string_view.remove_prefix, hsz]; omega)
        (by omega)]
    obtain ⟨g, hg2⟩ : ∃ g, f - d.length = g + 1 := ⟨f - d.length - 1, by omega⟩
    rw [hg2]
    have hcend : ( string_view.remove_prefix str 1).cend = str.data + str.size := by
      simp [ string_view.remove_prefix, string_view.cend, hsz]; omega
    refine DecodeBencodeDictionary_while_key mem g _ _ _ c (Or.inr ?_)
      (readByte_of_drop mem _ c _ (drop_add_of_drop mem _ _ _ h1)) hdig he
    rw [hcend, size_of_diff_eq _ _ (by omega) (by omega)]
    simp only [List.length_cons] at hmax
    refine ⟨?_, ?_⟩
    · show str.data + str.size - (str.data + 1 + (bencoded.entries d).length) ≤ STRING_MAX_SIZE
      omega
    · show str.data + 1 + (bencoded.entries d).length +
        (str.data + str.size - (str.data + 1 + (bencoded.entries d).length)) ≤ mem.length
      omega
  refine ⟨hall, ?_⟩
  have hat : str.at mem 0 = .ok 'd' := by
    have := readByte_of_drop mem str.data _ _ hmem0
    simp only [string_view.at]
    rw [if_pos (by omega)]
    simpa using this
  refine DecodeBencodeElement_dictionary_error mem str _ hat (hall _ ?_)
  have : (bencoded.entries d).length ≤ mem.length := by
    rw [← hm]; simp; omega
  omega

theorem dictionary_key_must_be_string_witness :
    DecodeBencodeDictionary ("di1ei2ee".toList ++ []) 2 (wholeInput 8) = .error .ParseError ∧
    DecodeBencodeElement ("di1ei2ee".toList ++ []) (wholeInput 8) = .error .ParseError ∧
    DecodeBencodeElement ("d1:ai1eli2eee".toList ++ []) (wholeInput 13) = .error .ParseError :=
  ⟨(dictionary_key_must_be_string [] 'i' "1ei2ee".toList [] rfl (by decide) (by decide)
      (by decide) (by decide)).1 2 (by decide),
   (dictionary_key_must_be_string [] 'i' "1ei2ee".toList [] rfl (by decide) (by decide)
      (by decide) (by decide)).2,
   (dictionary_key_must_be_string [("a".toList, .integer 1)] 'l' "i2eee".toList [] rfl
      (by decide) (by decide) (by decide) (by decide)).2⟩

/-- Claim C11: in a dictionary document whose body consists of the documents of
well-formed entries followed by the document of a byte-string key and then the
terminator `e` (a key without a value), `DecodeBencodeDictionary` raises
`ParseError` for every sufficient budget, and so does `DecodeBencodeElement`,
whatever follows in the view and in the buffer. The rest of the view from that
`e` on, which the failing assertion copies into its message, is not longer than
`std::string::max_size()`. -/
theorem key_without_value_rejected (d : List (List Char × BencodeElement)) (key : List Char)
    (rest tail : List Char) (hwf : wellFormed.entries d = true)
    (hkey : key.length < SIZE_MODULUS)
    (hlen : ('d' :: (bencoded.entries d ++ (bencoded (.string key) ++ 'e' :: rest))).length
      < SIZE_MODULUS)
    (hmax : ('e' :: rest).length ≤ STRING_MAX_SIZE) :
    (∀ fuel, 2 * (bencoded.entries d).length + 2 ≤ fuel →
      DecodeBencodeDictionary
        ('d' :: (bencoded.entries d ++ (bencoded (.string key) ++ 'e' :: rest)) ++ tail) fuel
        (wholeInput ('d' :: (bencoded.entries d ++ (bencoded (.string key) ++ 'e' :: rest))).length)
        = .error .ParseError) ∧
    DecodeBencodeElement
      ('d' :: (bencoded.entries d ++ (bencoded (.string key) ++ 'e' :: rest)) ++ tail)
      (wholeInput ('d' :: (bencoded.entries d ++ (bencoded (.string key) ++ 'e' :: rest))).length)
      = .error .ParseError := by
  have hn := bencoded_entries_length_ge d
  have hk2 := bencoded_length_ge (.string key)
  have hmem0 : ('d' :: (bencoded.entries d ++ (bencoded (.string key) ++ 'e' :: rest)) ++ tail).drop
      (wholeInput ('d' :: (bencoded.entries d ++ (bencoded (.string key) ++ 'e' :: rest))).length).data
      = 'd' :: (bencoded.entries d ++ (bencoded (.string key) ++ ('e' :: (rest ++ tail)))) := by
    simp [wholeInput]
  have hsize : (wholeInput ('d' :: (bencoded.entries d ++
      (bencoded (.string key) ++ 'e' :: rest))).length).size =
      (bencoded.entries d).length + (bencoded (.string key)).length + rest.length + 2 := by
    simp [wholeInput]; omega
  have hdata : (wholeInput ('d' :: (bencoded.entries d ++
      (bencoded (.string key) ++ 'e' :: rest))).length).data = 0 := rfl
  have hmemlen : ('d' :: (bencoded.entries d ++ (bencoded (.string key) ++ 'e' :: rest)) ++
      tail).length = (bencoded.entries d).length + (bencoded (.string key)).length +
        rest.length + 2 + tail.length := by
    simp only [List.length_cons, List.length_append]; omega
  generalize hm : 'd' :: (bencoded.entries d ++ (bencoded (.string key) ++ 'e' :: rest)) ++ tail
    = mem at *
  generalize wholeInput ('d' :: (bencoded.entries d ++
    (bencoded (.string key) ++ 'e' :: rest))).length = str at *
  have hlt : str.size < SIZE_MODULUS := by
    simp only [List.length_cons, List.length_append] at hlen
    omega
  have hg := nonemptyAnd_of_drop mem str (fun c => c == 'd') _ _ hmem0 (by omega)
  have hsz : size_of_diff str.size 1 = str.size - 1 := size_of_diff_eq _ _ (by omega) (by omega)
  have h1 := drop_succ_of_drop mem str.data _ _ hmem0
  have hkeypos := drop_add_of_drop mem _ _ _ h1
  have hepos := drop_add_of_drop mem _ _ _ hkeypos
  obtain ⟨c0, cs0, hc0, hdig0⟩ := bencoded_string_head key ('e' :: (rest ++ tail))
  have hall : ∀ fuel, 2 * (bencoded.entries d).length + 2 ≤ fuel →
      DecodeBencodeDictionary mem fuel str = .error .ParseError := by
    intro fuel hfuel
    obtain ⟨f, rfl⟩ : ∃ f, fuel = f + 1 := ⟨fuel - 1, by omega⟩
    rw [DecodeBencodeDictionary_succ mem f str (by simpa using hg)]
    simp only [string_view.cbegin]
    rw [show ( string_view.remove_prefix str 1).data = str.data + 1 from rfl,
      DecodeBencodeDictionary_while_entries mem ( string_view.remove_prefix str 1)
        (by simp [ string_view.remove_prefix, hsz]; omega) d f [] (str.data + 1) _ hwf h1
        (by simp [ string_view.remove_prefix]) (by simp [ string_view.remove_prefix, hsz]; omega)
        (by omega)]
    obtain ⟨g, hg2⟩ : ∃ g, f - d.length = g + 1 := ⟨f - d.length - 1, by omega⟩
    rw [hg2]
    have hcend : ( string_view.remove_prefix str 1).cend = str.data + str.size := by
      simp [ string_view.remove_prefix, string_view.cend, hsz]; omega
    have hkd : DecodeBencodeString mem
        ⟨str.data + 1 + (bencoded.entries d).length,
          size_of_diff ( string_view.remove_prefix str 1).cend
            (str.data + 1 + (bencoded.entries d).length)⟩ =
        .ok (key, str.data + 1 + (bencoded.entries d).length +
          (bencoded (.string key)).length) :=
      DecodeBencodeString_document mem
        ⟨str.data + 1 + (bencoded.entries d).length,
          size_of_diff ( string_view.remove_prefix str 1).cend
            (str.data + 1 + (bencoded.entries d).length)⟩ key _ hkeypos
        (by
          rw [hcend, size_of_diff_eq _ _ (by omega) (by omega)]
          simp only []
          omega) hkey
    have hin : string_view.inBuffer mem
        ( string_view.remove_prefix ⟨str.data + 1 + (bencoded.entries d).length,
          size_of_diff ( string_view.remove_prefix str 1).cend
            (str.data + 1 + (bencoded.entries d).length)⟩
          (str.data + 1 + (bencoded.entries d).length + (bencoded (.string key)).length -
            (str.data + 1 + (bencoded.entries d).length))) := by
      rw [remove_prefix_key _ _ _ (by omega) (by rw [hcend]; omega) (by rw [hcend]; omega),
        hcend]
      simp only [List.length_cons] at hmax
      refine ⟨?_, ?_⟩
      · show str.data + str.size - (str.data + 1 + (bencoded.entries d).length +
          (bencoded (.string key)).length) ≤ STRING_MAX_SIZE
        omega
      · show str.data + 1 + (bencoded.entries d).length + (bencoded (.string key)).length +
          (str.data + str.size - (str.data + 1 + (bencoded.entries d).length +
            (bencoded (.string key)).length)) ≤ mem.length
        omega
    exact DecodeBencodeDictionary_while_unknown mem g _ _ _ c0 key _ 'e'
      (readByte_of_drop mem _ c0 cs0 (by rw [hkeypos, hc0]))
      (by rintro rfl; cases hdig0) hkd hin
      (readByte_of_drop mem _ 'e' _ hepos) (by decide) (by decide) (by decide) (by decide)
  refine ⟨hall, ?_⟩
  have hat : str.at mem 0 = .ok 'd' := by
    have := readByte_of_drop mem str.data _ _ hmem0
    simp only [string_view.at]
    rw [if_pos (by omega)]
    simpa using this
  refine DecodeBencodeElement_dictionary_error mem str _ hat (hall _ ?_)
  have : (bencoded.entries d).length ≤ mem.length := by
    rw [← hm]; simp; omega
  omega

theorem key_without_value_rejected_witness :
    DecodeBencodeDictionary ("d3:cowe".toList ++ []) 2 (wholeInput 7) = .error .ParseError ∧
    DecodeBencodeElement ("d3:cowe".toList ++ []) (wholeInput 7) = .error .ParseError ∧
    DecodeBencodeElement ("d1:ai1e3:cowe".toList ++ ['\x00']) (wholeInput 13) =
      .error .ParseError :=
  ⟨(key_without_value_rejected [] "cow".toList [] [] rfl (by decide) (by decide)
      (by decide)).1 2
      (by decide),
   (key_without_value_rejected [] "cow".toList [] [] rfl (by decide) (by decide)
      (by decide)).2,
   (key_without_value_rejected [("a".toList, .integer 1)] "cow".toList [] ['\x00'] rfl
      (by decide) (by decide) (by decide)).2⟩

/-- Claim C12: for every `n` in the `long long` range, the document `i`, decimal
text of `n` (with a leading `-` when `n` is negative), `e` decodes to the integer
`n`, whatever follows the view in the buffer. -/
theorem integer_decoding_exact (n : Int) (tail : List Char)
    (hlo : LLONG_MIN ≤ n) (hhi : n ≤ LLONG_MAX) :
    DecodeBencodeElement ('i' :: (to_string_long_long n ++ ['e']) ++ tail)
      (wholeInput ('i' :: (to_string_long_long n ++ ['e'])).length) = .ok (.integer n) := by
  have hwf : wellFormed (.integer n) = true := by simp [wellFormed, hlo, hhi]
  have hlen : (bencoded (.integer n)).length < SIZE_MODULUS := by
    have := to_string_long_long_length_le n
    have hb : (bencoded (.integer n)).length = (to_string_long_long n).length + 2 := by
      simp [bencoded]
    rw [hb]
    unfold LLONG_MIN at hlo
    unfold LLONG_MAX at hhi
    unfold SIZE_MODULUS
    omega
  exact DecodeBencodeElement_document (.integer n) tail hwf hlen

theorem integer_decoding_exact_witness :
    'i' :: (to_string_long_long (-3) ++ ['e']) = "i-3e".toList ∧
    DecodeBencodeElement ('i' :: (to_string_long_long (-3) ++ ['e']) ++ [])
      (wholeInput ('i' :: (to_string_long_long (-3) ++ ['e'])).length) = .ok (.integer (-3)) :=
  ⟨rfl, integer_decoding_exact (-3) [] (by decide) (by decide)⟩

/-- Claim C13 (code at the witnesses): the views `i e`, `ie`, `i-e` and `i42x` end
in `ParseError`.  On the view `i42` the routine dereferences the pointer behind
the digit run, which is the end of the view: inside the buffer `i42e` it
reads the `e` behind the view and returns `42` with a position behind the view;
over a buffer that ends with the view it reads outside the buffer; only with
another byte such as NUL behind the view does it raise `ParseError`. -/
theorem malformed_integer_views :
    DecodeBencodeInteger "i e".toList (wholeInput 3) = .error .ParseError ∧
    DecodeBencodeInteger "ie".toList (wholeInput 2) = .error .ParseError ∧
    DecodeBencodeInteger "i-e".toList (wholeInput 3) = .error .ParseError ∧
    DecodeBencodeInteger "i42x".toList (wholeInput 4) = .error .ParseError ∧
    DecodeBencodeInteger "i42e".toList (wholeInput 3) = .ok (42, 4) ∧
    (wholeInput 3).cend = 3 ∧
    DecodeBencodeInteger "i42".toList (wholeInput 3) = .error .undefined ∧
    DecodeBencodeInteger "i42\x00".toList (wholeInput 3) = .error .ParseError :=
  ⟨rfl, rfl, rfl, rfl, rfl, rfl, rfl, rfl⟩

/-- Claim C14: for entries `(k1, v1) .. (kn, vn)` (`n` may be `0`) with pairwise
distinct keys and well-formed values whose own dictionaries have pairwise distinct
keys, the document `d`, then for each entry the byte string `ki` and the document
of `vi`, then `e`, decodes to the dictionary with exactly these entries: its keys
are `k1 .. kn` and every `ki` is mapped to `vi`. -/
theorem dictionary_with_distinct_keys (d : List (List Char × BencodeElement))
    (tail : List Char) (hwf : wellFormed (.dictionary d) = true)
    (hkeys : distinctKeys (.dictionary d) = true)
    (hlen : (bencoded (.dictionary d)).length < SIZE_MODULUS) :
    ∃ dict, DecodeBencodeElement (bencoded (.dictionary d) ++ tail)
        (wholeInput (bencoded (.dictionary d)).length) = .ok (.dictionary dict) ∧
      dict.map Prod.fst = d.map Prod.fst ∧
      (∀ entry ∈ d, dict.lookup entry.1 = some entry.2) ∧
      dict = d := by
  refine ⟨d, ?_, rfl, ?_, rfl⟩
  · rw [DecodeBencodeElement_document _ tail hwf hlen,
      decoded_eq_self_of_distinctKeys _ hkeys]
  · simp only [distinctKeys, Bool.and_eq_true, decide_eq_true_eq] at hkeys
    exact lookup_of_mem_nodup d hkeys.1

theorem dictionary_with_distinct_keys_witness :
    bencoded (.dictionary [("cow".toList, .string "moo".toList),
      ("spam".toList, .string "eggs".toList)]) = "d3:cow3:moo4:spam4:eggse".toList ∧
    bencoded (.dictionary []) = "de".toList ∧
    (∃ dict, DecodeBencodeElement (bencoded (.dictionary [("cow".toList, .string "moo".toList),
        ("spam".toList, .string "eggs".toList)]) ++ [])
      (wholeInput (bencoded (.dictionary [("cow".toList, .string "moo".toList),
        ("spam".toList, .string "eggs".toList)])).length) = .ok (.dictionary dict) ∧
      dict.map Prod.fst = [("cow".toList, BencodeElement.string "moo".toList),
        ("spam".toList, .string "eggs".toList)].map Prod.fst ∧
      (∀ entry ∈ [("cow".toList, BencodeElement.string "moo".toList),
        ("spam".toList, .string "eggs".toList)], dict.lookup entry.1 = some entry.2) ∧
      dict = [("cow".toList, .string "moo".toList), ("spam".toList, .string "eggs".toList)]) ∧
    DecodeBencodeElement "de".toList (wholeInput 2) = .ok (.dictionary []) :=
  ⟨rfl, rfl,
   dictionary_with_distinct_keys [("cow".toList, .string "moo".toList),
      ("spam".toList, .string "eggs".toList)] [] rfl rfl (by decide),
   rfl⟩

/-- Claim C15 (code at the failing inputs): for the empty list the output built
so far is `[`, of size 1, so `output_str.size() - 3` wraps around in `std::size_t`
and `erase` throws `std::out_of_range`; the same happens for the empty dictionary
with `{`.  `Prettier` returns neither `[]` nor `{}`. -/
theorem Prettier_empty_containers_throw :
    Prettier (.list []) = .error .out_of_range ∧
    Prettier (.dictionary []) = .error .out_of_range ∧
    size_of_diff 1 3 = 18446744073709551614 :=
  ⟨rfl, rfl, by decide⟩

/-- Claim C16 (code at the failing inputs): `Prettier` throws `std::out_of_range`
on the empty list, on the empty dictionary, and on well-formed values that contain
one of them, here a list holding an empty list and a dictionary holding an empty
dictionary. -/
theorem Prettier_not_total :
    wellFormed (.list []) = true ∧
    Prettier (.list []) = .error .out_of_range ∧
    Prettier (.dictionary []) = .error .out_of_range ∧
    Prettier (.list [.integer 1, .list []]) = .error .out_of_range ∧
    Prettier (.dictionary [("a".toList, .dictionary [])]) = .error .out_of_range :=
  ⟨rfl, rfl, rfl, rfl, rfl⟩

/-- Claim C17 (code at the failing input and next to it): on the empty list
`Prettier` throws `std::out_of_range` instead of returning `[]`; on lists with at
least one item the trailing separator is removed exactly, also when an item
renders as the empty text or as the separator itself. -/
theorem Prettier_list_examples :
    Prettier (.list []) = .error .out_of_range ∧
    Prettier (.list [.string []]) = .ok "[]".toList ∧
    Prettier (.list [.string [], .string []]) = .ok "[ , ]".toList ∧
    Prettier (.list [.string " , ".toList]) = .ok "[ , ]".toList ∧
    Prettier (.list [.string "a , ".toList, .integer 7]) = .ok "[a ,  , 7]".toList :=
  ⟨rfl, rfl, rfl, rfl, rfl⟩

/-- Claim C18: for a dictionary with the single entry `key -> el` the encoder
returns `d`, the bytes of `key` as they are (no length, no `:`), the encoding of
`el`, and `e`. -/
theorem Decode_dictionary_raw_key (key : List Char) (el : BencodeElement) :
    Decode (.dictionary [(key, el)]) = ['d'] ++ key ++ Decode el ++ ['e'] := by
  simp [Decode, details.Decoder, details.Decoder.forDict]

/-- Claim C19: for a non-empty run of ASCII digits, optionally preceded by `-`,
whose value lies outside the `long long` range, `DecodeBencodeInteger` applied to a
view that starts with `i`, the run and `e` raises no `ParseError`: it returns the
integer `0` and the position behind the `e`. -/
theorem integer_overflow_accepted (mem : List Char) (str : string_view) (negative : Bool)
    (ds rest : List Char) (hne : ds ≠ []) (hdig : ∀ x ∈ ds, x.isDigit = true)
    (hmem : mem.drop str.data =
      'i' :: ((if negative then ['-'] else []) ++ (ds ++ 'e' :: rest)))
    (hsize : 1 + (if negative then 1 else 0) + ds.length ≤ str.size)
    (hlt : str.size < SIZE_MODULUS)
    (hout : if negative then -(decimalValue ds : Int) < LLONG_MIN
      else LLONG_MAX < (decimalValue ds : Int)) :
    DecodeBencodeInteger mem str =
      .ok (0, str.data + 1 + (if negative then 1 else 0) + ds.length + 1) := by
  have hpos : 0 < ds.length := List.length_pos.mpr hne
  have h0 := nonemptyAnd_of_drop mem str (fun c => c == 'i') _ _ hmem (by omega)
  have h1 := drop_succ_of_drop mem str.data _ _ hmem
  have hsz : size_of_diff str.size 1 = str.size - 1 := size_of_diff_eq _ _ (by omega) (by omega)
  cases negative with
  | true =>
    simp only [if_true, List.cons_append, List.nil_append] at h1 hsize hout ⊢
    have hfl : str.data + 1 < str.data + 1 + (str.size - 1) := by omega
    have h2 := drop_succ_of_drop mem _ _ _ h1
    have hrun := digitRun_run mem (str.data + 1 + 1) (str.data + 1 + (str.size - 1)) ds 'e' rest
      hdig h2 isDigit_false_e (by omega)
    have h3 := drop_add_of_drop mem _ _ _ h2
    have h4 := readByte_of_drop mem _ _ _ h3
    have hne2 : ¬ (str.data + 1 + 1 + ds.length = str.data + 1 + 1) := by omega
    have hrange : ¬ (LLONG_MIN ≤ -(decimalValue ds : Int) ∧ -(decimalValue ds : Int) ≤ LLONG_MAX) := by
      intro h; omega
    have hfc : from_chars_long_long mem (str.data + 1) (str.data + 1 + (str.size - 1)) 0 =
        .ok ⟨str.data + 1 + 1 + ds.length, .result_out_of_range, 0⟩ := by
      simp [from_chars_long_long, hfl, readByte_of_drop mem _ _ _ h1, bind, Except.bind, hrun,
        hne2, hrange, pure, Except.pure]
    simp [DecodeBencodeInteger, h0, PARSE_ERROR_ASSERT, bind, Except.bind, pure, Except.pure,
      string_view.remove_prefix, string_view.cbegin, string_view.cend, hsz, hfc, h4]
  | false =>
    simp only [Bool.false_eq_true, if_false, List.nil_append] at h1 hsize hout ⊢
    obtain ⟨d, dt, hd⟩ := List.exists_cons_of_ne_nil hne
    have hdd : d.isDigit = true := hdig d (by rw [hd]; exact List.mem_cons_self _ _)
    have hdm : (d == '-') = false := by
      cases hq : (d == '-') with
      | false => rfl
      | true =>
        have : d = '-' := by simpa using hq
        subst this
        cases hdd
    have h1c : mem.drop (str.data + 1) = d :: (dt ++ 'e' :: rest) := by rw [h1, hd]; rfl
    have hfl : str.data + 1 < str.data + 1 + (str.size - 1) := by omega
    have hrun := digitRun_run mem (str.data + 1) (str.data + 1 + (str.size - 1)) ds 'e' rest
      hdig h1 isDigit_false_e (by omega)
    have h3 := drop_add_of_drop mem _ _ _ h1
    have h4 := readByte_of_drop mem _ _ _ h3
    have hne2 : ¬ (str.data + 1 + ds.length = str.data + 1) := by omega
    have hrange : ¬ (LLONG_MIN ≤ (decimalValue ds : Int) ∧ (decimalValue ds : Int) ≤ LLONG_MAX) := by
      intro h; omega
    have hfc : from_chars_long_long mem (str.data + 1) (str.data + 1 + (str.size - 1)) 0 =
        .ok ⟨str.data + 1 + ds.length, .result_out_of_range, 0⟩ := by
      simp [from_chars_long_long, hfl, readByte_of_drop mem _ _ _ h1c, bind, Except.bind, hrun,
        hne2, hrange, pure, Except.pure, hdm]
    simp [DecodeBencodeInteger, h0, PARSE_ERROR_ASSERT, bind, Except.bind, pure, Except.pure,
      string_view.remove_prefix, string_view.cbegin, string_view.cend, hsz, hfc, h4]

theorem integer_overflow_accepted_witness :
    DecodeBencodeInteger "i9223372036854775808e".toList (wholeInput 21) = .ok (0, 21) ∧
    DecodeBencodeInteger "i-9223372036854775809e".toList (wholeInput 22) = .ok (0, 22) :=
  ⟨integer_overflow_accepted "i9223372036854775808e".toList (wholeInput 21) false
      "9223372036854775808".toList [] (by decide) (by decide) rfl (by decide) (by decide)
      (by decide),
   integer_overflow_accepted "i-9223372036854775809e".toList (wholeInput 22) true
      "9223372036854775809".toList [] (by decide) (by decide) rfl (by decide) (by decide)
      (by decide)⟩

/-- Claim C20 (code at the failing input): positions do grow, but the remaining
view does not always get shorter, and not every run ends with a value or a
failure. On the view `l3:ab` (5 bytes, end of view 5) inside the buffer
`l3:abc1:xe`, the first iteration of the list loop hands the 4 bytes `3:ab` to
`DecodeBencodeString`, which copies 3 bytes without comparing with the end of the
view and returns position 6. The second iteration starts at cursor 6, behind the
end of the view, on a view whose size `5 - 6` has wrapped to `2^64 - 1`: it is
longer than the one before, `DecodeBencodeString` succeeds on it, and
`DecodeBencodeList` returns the list `[abc, x]` and position 10, taken from bytes
behind the view. On the view `li42e` over a buffer that ends with it,
`DecodeBencodeElement` reads outside the buffer, which is neither a value nor a
failure. -/
theorem remaining_view_grows_behind_view_end :
    ( string_view.remove_prefix (wholeInput 5) 1).cend = 5 ∧
    size_of_diff ( string_view.remove_prefix (wholeInput 5) 1).cend 1 = 4 ∧
    DecodeBencodeString "l3:abc1:xe".toList
      ⟨1, size_of_diff ( string_view.remove_prefix (wholeInput 5) 1).cend 1⟩ =
        .ok ("abc".toList, 6) ∧
    size_of_diff ( string_view.remove_prefix (wholeInput 5) 1).cend 6 =
      18446744073709551615 ∧
    DecodeBencodeString "l3:abc1:xe".toList
      ⟨6, size_of_diff ( string_view.remove_prefix (wholeInput 5) 1).cend 6⟩ =
        .ok ("x".toList, 9) ∧
    DecodeBencodeList_while "l3:abc1:xe".toList 20 ( string_view.remove_prefix (wholeInput 5) 1)
      [.string "abc".toList] 6 = .ok ([.string "abc".toList, .string "x".toList], 10) ∧
    DecodeBencodeList "l3:abc1:xe".toList 22 (wholeInput 5) =
      .ok ([.string "abc".toList, .string "x".toList], 10) ∧
    DecodeBencodeElement "li42e".toList (wholeInput 5) = .error .undefined :=
  ⟨rfl, rfl, rfl, rfl, rfl, rfl, rfl, rfl⟩

end bencode
